import Mathlib

/-!
Shallow embedding of the GraphRAG legal-case search system
(knowledge-graph construction, bounded BFS traversal scoring, GraphRAG
retrieval, traditional search and the combined search router), together
with proofs settling the frozen claims about it.

Python floats on the score paths are modelled as exact fractions
(`Frac` below): every arithmetic operation performed by the code on
scores (addition, multiplication, division by a positive count,
comparison, `min`) is rational-valued, so the exact-fraction semantics
is the intended real-number semantics of the reference code.
-/

/-- Exact fraction with value `num / (den + 1)`.  The denominator is
stored minus one, so every value of the type has a positive denominator
and no gcd normalisation is ever needed (keeping all operations kernel
computable). -/
structure Frac where
  num : Int
  den : Nat
deriving DecidableEq, Repr

/-- Rational value of a `Frac`. -/
def Frac.val (q : Frac) : ℚ := (q.num : ℚ) / ((q.den : ℚ) + 1)

/-- Integer constant. -/
def Frac.ofNat (n : Nat) : Frac := ⟨(n : Int), 0⟩

/-- Multiplication of fractions. -/
def Frac.mul (a b : Frac) : Frac :=
  ⟨a.num * b.num, (a.den + 1) * (b.den + 1) - 1⟩

/-- Addition of fractions. -/
def Frac.add (a b : Frac) : Frac :=
  ⟨a.num * ((b.den : Int) + 1) + b.num * ((a.den : Int) + 1),
   (a.den + 1) * (b.den + 1) - 1⟩

/-- Negation. -/
def Frac.neg (a : Frac) : Frac := ⟨-a.num, a.den⟩

/-- Subtraction. -/
def Frac.sub (a b : Frac) : Frac := a.add b.neg

/-- Division by a count.  Every call site passes a positive `d`
(`depth + 1`, or a guarded nonzero total length). -/
def Frac.divNat (a : Frac) (d : Nat) : Frac := ⟨a.num, (a.den + 1) * d - 1⟩

/-- Boolean comparison `a ≤ b`, by cross multiplication (denominators
are positive by construction). -/
def Frac.ble (a b : Frac) : Bool :=
  a.num * ((b.den : Int) + 1) ≤ b.num * ((a.den : Int) + 1)

/-- Boolean strict comparison `a < b`. -/
def Frac.blt (a b : Frac) : Bool := !(Frac.ble b a)

/-- Python `min(a, b)`: returns `a` when `a <= b`. -/
def Frac.fmin (a b : Frac) : Frac := if a.ble b then a else b

theorem Frac.den_cast_pos (a : Frac) : (0 : ℚ) < (a.den : ℚ) + 1 := by
  positivity

theorem Frac.val_ofNat (n : Nat) : (Frac.ofNat n).val = (n : ℚ) := by
  simp [Frac.val, Frac.ofNat]

theorem Frac.sub_one_add_one {m : Nat} (h : 0 < m) : ((m - 1 : Nat) : ℚ) + 1 = (m : ℚ) := by
  have h1 : (m - 1) + 1 = m := Nat.succ_pred_eq_of_pos h
  have := congrArg (fun k => ((k : Nat) : ℚ)) h1
  push_cast at this
  linarith

theorem Frac.val_mul (a b : Frac) : (a.mul b).val = a.val * b.val := by
  have hpos : 0 < (a.den + 1) * (b.den + 1) := Nat.mul_pos (Nat.succ_pos _) (Nat.succ_pos _)
  have hden : (((a.den + 1) * (b.den + 1) - 1 : Nat) : ℚ) + 1
      = ((a.den : ℚ) + 1) * ((b.den : ℚ) + 1) := by
    rw [Frac.sub_one_add_one hpos]; push_cast; ring
  have ha := Frac.den_cast_pos a
  have hb := Frac.den_cast_pos b
  simp only [Frac.val, Frac.mul, hden]
  push_cast
  field_simp

theorem Frac.val_add (a b : Frac) : (a.add b).val = a.val + b.val := by
  have hpos : 0 < (a.den + 1) * (b.den + 1) := Nat.mul_pos (Nat.succ_pos _) (Nat.succ_pos _)
  have hden : (((a.den + 1) * (b.den + 1) - 1 : Nat) : ℚ) + 1
      = ((a.den : ℚ) + 1) * ((b.den : ℚ) + 1) := by
    rw [Frac.sub_one_add_one hpos]; push_cast; ring
  have ha := Frac.den_cast_pos a
  have hb := Frac.den_cast_pos b
  simp only [Frac.val, Frac.add, hden]
  push_cast
  field_simp

theorem Frac.val_neg (a : Frac) : a.neg.val = -a.val := by
  simp [Frac.val, Frac.neg, neg_div]

theorem Frac.val_sub (a b : Frac) : (a.sub b).val = a.val - b.val := by
  rw [Frac.sub, Frac.val_add, Frac.val_neg]; ring

theorem Frac.val_divNat (a : Frac) {d : Nat} (hd : 0 < d) :
    (a.divNat d).val = a.val / (d : ℚ) := by
  have hpos : 0 < (a.den + 1) * d := Nat.mul_pos (Nat.succ_pos _) hd
  have hden : (((a.den + 1) * d - 1 : Nat) : ℚ) + 1 = ((a.den : ℚ) + 1) * (d : ℚ) := by
    rw [Frac.sub_one_add_one hpos]; push_cast; ring
  have ha := Frac.den_cast_pos a
  have hdq : (0 : ℚ) < (d : ℚ) := by exact_mod_cast hd
  simp only [Frac.val, Frac.divNat, hden]
  field_simp

theorem Frac.ble_iff (a b : Frac) : a.ble b = true ↔ a.val ≤ b.val := by
  have ha := Frac.den_cast_pos a
  have hb := Frac.den_cast_pos b
  simp only [Frac.ble, decide_eq_true_eq, Frac.val]
  rw [div_le_div_iff ha hb]
  constructor
  · intro h
    have : ((a.num * ((b.den : Int) + 1) : Int) : ℚ) ≤ ((b.num * ((a.den : Int) + 1) : Int) : ℚ) := by
      exact_mod_cast h
    push_cast at this
    linarith
  · intro h
    have : ((a.num * ((b.den : Int) + 1) : Int) : ℚ) ≤ ((b.num * ((a.den : Int) + 1) : Int) : ℚ) := by
      push_cast
      linarith
    exact_mod_cast this

theorem Frac.blt_iff (a b : Frac) : a.blt b = true ↔ a.val < b.val := by
  simp only [Frac.blt, Bool.not_eq_true', ← Bool.not_eq_true, Frac.ble_iff, not_le]

theorem Frac.val_fmin (a b : Frac) : (a.fmin b).val = min a.val b.val := by
  by_cases h : a.ble b = true
  · rw [Frac.fmin, if_pos h, min_eq_left ((Frac.ble_iff a b).mp h)]
  · have : ¬ a.val ≤ b.val := fun hc => h ((Frac.ble_iff a b).mpr hc)
    rw [Frac.fmin, if_neg (by simpa using h), min_eq_right (le_of_not_le this)]

/-!
Character-list string utilities.  Python string operations used by the
code are modelled on `List Char` (obtained through `String.toList`).
Unicode NFC normalisation is modelled as the identity (all inputs are
assumed NFC-normal, which holds for the Thai legal data), and
`str.lower` as ASCII lowering (`Char.toLower`), which agrees with
Python on the ASCII and Thai characters occurring in the data.
-/

/-- Python `str.lower()`. -/
def lowerChars (s : List Char) : List Char := s.map Char.toLower

/-- Python `str.strip()` (also `text.strip()` inside the regex based
whitespace normalisers). -/
def trimChars (s : List Char) : List Char :=
  ((s.dropWhile Char.isWhitespace).reverse.dropWhile Char.isWhitespace).reverse

/-- Collapse every maximal whitespace run to a single blank: the effect
of `re.sub` with pattern "backslash s plus" and replacement " ". -/
def collapseWs : List Char → Bool → List Char
  | [], _ => []
  | c :: cs, prev =>
    if c.isWhitespace then
      (if prev then collapseWs cs true else ' ' :: collapseWs cs true)
    else c :: collapseWs cs false

/-- Python `str.split()` with no separator: maximal nonempty
whitespace-separated words. -/
def wordsAux : List Char → List Char → List (List Char)
  | [], acc => if acc.isEmpty then [] else [acc.reverse]
  | c :: cs, acc =>
    if c.isWhitespace then
      (if acc.isEmpty then wordsAux cs [] else acc.reverse :: wordsAux cs [])
    else wordsAux cs (c :: acc)

/-- Python `str.split()`. -/
def splitWsCL (s : List Char) : List (List Char) := wordsAux s []

/-- Python substring membership `p in s` on char lists. -/
def containsCL : List Char → List Char → Bool
  | _, [] => true
  | [], _ :: _ => false
  | c :: cs, p => p.isPrefixOf (c :: cs) || containsCL cs p

/-- Python single-character `str.replace(a, b)`. -/
def replaceChar (a b : Char) (s : List Char) : List Char :=
  s.map (fun c => if c = a then b else c)

/-- Word character for the regex class used by the code: ASCII
alphanumerics, underscore, and Thai letters and marks (U+0E01-U+0E4E
covers Thai consonants, vowels and tone marks, matching the Python
unicode word class on the characters occurring in the data). -/
def isWordChar (c : Char) : Bool :=
  c.isAlphanum || c = '_' || (0x0E01 ≤ c.toNat && c.toNat ≤ 0x0E4E)

/-!
`difflib.SequenceMatcher(None, a, b).ratio()`, embedded for inputs
shorter than the 200-character autojunk threshold (every call site
compares normalised judge names, far below that bound), so the junk
machinery is vacuous.
-/

/-- Ascending indices at which character `c` occurs in `b`
(the `b2j` table of `SequenceMatcher`). -/
def b2jIdx (b : List Char) (c : Char) : List Nat :=
  (List.range b.length).filter (fun j => b.get? j = some c)

/-- Inner loop of `find_longest_match` for one row `i`: fold over the
occurrence indices of `a[i]` within `[blo, bhi)`, building the new
run-length table and updating the best block. -/
def flmRow (j2len : Nat → Nat) (blo bhi i : Nat) :
    List Nat → (Nat → Nat) → (Nat × Nat × Nat) → ((Nat → Nat) × (Nat × Nat × Nat))
  | [], newj2len, best => (newj2len, best)
  | j :: js, newj2len, best =>
    if j < blo then flmRow j2len blo bhi i js newj2len best
    else if bhi ≤ j then (newj2len, best)
    else
      let k := (if j = 0 then 0 else j2len (j - 1)) + 1
      let newj2len := fun x => if x = j then k else newj2len x
      let best := if best.2.2 < k then (i + 1 - k, j + 1 - k, k) else best
      flmRow j2len blo bhi i js newj2len best

/-- Outer loop of `find_longest_match` over rows `i` in `[alo, ahi)`. -/
def flmRows (a b : List Char) (blo bhi : Nat) :
    List Nat → (Nat → Nat) → (Nat × Nat × Nat) → (Nat × Nat × Nat)
  | [], _, best => best
  | i :: is, j2len, best =>
    let r := flmRow j2len blo bhi i (b2jIdx b ((a.get? i).getD ' ')) (fun _ => 0) best
    flmRows a b blo bhi is r.1 r.2

/-- `SequenceMatcher.find_longest_match` (no junk: the two junk
extension loops after the dynamic program are no-ops, since a
neighbouring equal character would already have produced a longer
block). -/
def find_longest_match (a b : List Char) (alo ahi blo bhi : Nat) : Nat × Nat × Nat :=
  flmRows a b blo bhi (List.range' alo (ahi - alo)) (fun _ => 0) (alo, blo, 0)

/-- Total size of all matching blocks (the recursive divide and conquer
of `get_matching_blocks`, summed).  The fuel is the length of the
`a`-range, which strictly shrinks on both recursive calls. -/
def matchingSum (a b : List Char) : Nat → Nat × Nat × Nat × Nat → Nat
  | 0, _ => 0
  | fuel + 1, (alo, ahi, blo, bhi) =>
    let r := find_longest_match a b alo ahi blo bhi
    let i := r.1
    let j := r.2.1
    let k := r.2.2
    if k = 0 then 0
    else
      k + (if alo < i ∧ blo < j then matchingSum a b fuel (alo, i, blo, j) else 0)
        + (if i + k < ahi ∧ j + k < bhi then matchingSum a b fuel (i + k, ahi, j + k, bhi) else 0)

/-- `difflib.SequenceMatcher(None, str1, str2).ratio()`: twice the
matched total over the combined length (1.0 for two empty strings).
This is the `similarity_score` helper of the text utilities module. -/
def similarity_score (s1 s2 : List Char) : Frac :=
  let m := matchingSum s1 s2 (s1.length + 1) (0, s1.length, 0, s2.length)
  if s1.length + s2.length = 0 then Frac.ofNat 1
  else ⟨(2 * m : Int), s1.length + s2.length - 1⟩

/-!
Judge-name normalisation (`normalize_judge_name` in the text
utilities) and fuzzy matching (`find_best_match`).
-/

/-- `normalize_unicode`: NFC (modelled as the identity), then strip and
collapse whitespace. -/
def normalize_unicode (s : List Char) : List Char := collapseWs (trimChars s) false

/-- Honorific prefixes stripped from judge names, in source order. -/
def judgePrefixes : List (List Char) :=
  ["นาย".toList, "นาง".toList, "นางสาว".toList, "ดร.".toList,
   "ศาสตราจารย์".toList, "รองศาสตราจารย์".toList,
   "ผู้พิพากษา".toList, "ผู้พิพากษาหัวหน้า".toList, "ผู้พิพากษาที่ปรึกษา".toList,
   "ประธานศาลฎีกา".toList, "รองประธานศาลฎีกา".toList, "ผู้พิพากษาศาลฎีกา".toList]

/-- One anchored `re.sub` with pattern "prefix, whitespace star" and
empty replacement: drop the prefix and any following whitespace. -/
def stripOnePrefix (p s : List Char) : List Char :=
  if p.isPrefixOf s then (s.drop p.length).dropWhile Char.isWhitespace else s

/-- Characters removed by the punctuation and digit scrub of
`normalize_judge_name`. -/
def isScrubbed (c : Char) : Bool :=
  c.isDigit || c = '.' || c = ',' || c = '(' || c = ')' || c = '-' || c = ':'

/-- `normalize_judge_name`. -/
def normalize_judge_name (s : List Char) : List Char :=
  if s.isEmpty then []
  else
    let n := normalize_unicode s
    let n := collapseWs (trimChars (lowerChars n)) false
    let n := judgePrefixes.foldl (fun acc p => stripOnePrefix p acc) n
    let n := n.filter (fun c => !(isScrubbed c))
    collapseWs (trimChars n) false

/-- `find_best_match`: candidates whose normalised form contains, is
contained in, or is similar (ratio at least the threshold) to the
normalised query. -/
def find_best_match (query : List Char) (candidates : List (List Char)) (threshold : Frac) :
    List (List Char) :=
  let qn := normalize_judge_name query
  candidates.filter (fun cand =>
    let cn := normalize_judge_name cand
    containsCL cn qn || containsCL qn cn || threshold.ble (similarity_score qn cn))

/-!
The knowledge graph.  `networkx.Graph` is modelled as a node table in
insertion order (identifier with optional `type` attribute) plus one
edge entry per unordered pair, in insertion order; `add_node` on an
existing node updates its attribute in place, `add_edge` on an existing
pair updates the given attributes in place, as networkx does.
-/

/-- Edge attributes: the relation label and the optional weight. -/
structure EdgeData where
  relation : String
  weight : Option Frac
deriving DecidableEq, Repr

/-- The graph. -/
structure PyGraph where
  nodes : List (String × Option String)
  edges : List (String × String × EdgeData)
deriving DecidableEq, Repr

def PyGraph.empty : PyGraph := ⟨[], []⟩

/-- Whether the stored endpoints `a, b` name the unordered pair `u, v`. -/
def sameEdge (u v a b : String) : Bool := (a = u && b = v) || (a = v && b = u)

/-- Graph membership (`x in self.graph`). -/
def PyGraph.mem (g : PyGraph) (x : String) : Bool := g.nodes.any (fun p => p.1 = x)

/-- Attribute lookup for the edge of an unordered pair. -/
def PyGraph.findEdge (g : PyGraph) (u v : String) : Option EdgeData :=
  (g.edges.find? (fun e => sameEdge u v e.1 e.2.1)).map (fun e => e.2.2)

/-- The `type` node attribute, when present. -/
def PyGraph.nodeTypeAttr (g : PyGraph) (x : String) : Option String :=
  (g.nodes.find? (fun p => p.1 = x)).bind (fun p => p.2)

/-- `self.graph.nodes[x].get("type", "unknown")` (also total on missing
nodes, as in the `nodes.get(x, {})` call sites). -/
def PyGraph.nodeTypeD (g : PyGraph) (x : String) : String :=
  (g.nodeTypeAttr x).getD "unknown"

/-- `add_node(x, type=ty)`: update the attribute in place if the node
exists, else append it. -/
def PyGraph.add_node (g : PyGraph) (x : String) (ty : String) : PyGraph :=
  if g.nodes.any (fun p => p.1 = x) then
    { g with nodes := g.nodes.map (fun p => if p.1 = x then (p.1, some ty) else p) }
  else { g with nodes := g.nodes ++ [(x, some ty)] }

/-- networkx `add_edge` silently adds missing endpoints (with no
attributes). -/
def PyGraph.ensureNode (g : PyGraph) (x : String) : PyGraph :=
  if g.nodes.any (fun p => p.1 = x) then g else { g with nodes := g.nodes ++ [(x, none)] }

/-- `add_edge(u, v, relation=rel)`: update the relation of the existing
pair (keeping its other attributes) or append a fresh edge. -/
def PyGraph.add_edge_rel (g : PyGraph) (u v : String) (rel : String) : PyGraph :=
  let g := (g.ensureNode u).ensureNode v
  if (g.edges.any (fun e => sameEdge u v e.1 e.2.1)) then
    { g with edges := g.edges.map (fun e =>
        if sameEdge u v e.1 e.2.1 then (e.1, e.2.1, { e.2.2 with relation := rel }) else e) }
  else { g with edges := g.edges ++ [(u, v, ⟨rel, none⟩)] }

/-- `add_edge(u, v, relation=rel, weight=w)`. -/
def PyGraph.add_edge_w (g : PyGraph) (u v : String) (rel : String) (w : Frac) : PyGraph :=
  let g := (g.ensureNode u).ensureNode v
  if (g.edges.any (fun e => sameEdge u v e.1 e.2.1)) then
    { g with edges := g.edges.map (fun e =>
        if sameEdge u v e.1 e.2.1 then (e.1, e.2.1, ⟨rel, some w⟩) else e) }
  else { g with edges := g.edges ++ [(u, v, ⟨rel, some w⟩)] }

/-- Neighbour iteration order: networkx yields the neighbours of `u` in
the order the incident edges were first inserted, which is their order
in the global edge list. -/
def PyGraph.neighbors (g : PyGraph) (u : String) : List String :=
  g.edges.filterMap (fun e =>
    if e.1 = u then some e.2.1 else if e.2.1 = u then some e.1 else none)

/-- `get_edge_data(u, v, {}).get("weight", 1.0)`. -/
def PyGraph.edgeWeightD (g : PyGraph) (u v : String) : Frac :=
  ((g.findEdge u v).bind (fun d => d.weight)).getD (Frac.ofNat 1)

/-!
Entity extraction (`extract_entities`, `_extract_legal_concepts`) and
graph building (`build_graph`, `_add_case_relationships`,
`_add_similarity_relationships`).  Python sets are modelled as
insertion-ordered duplicate-free lists (a deterministic representative
of the set semantics; none of the proved properties depend on set
iteration order).
-/

/-- Set insertion (`set.add` and `set.update`, deduplicating). -/
def listInsert (l : List String) (x : String) : List String :=
  if x ∈ l then l else l ++ [x]

def listInsertAll (l : List String) (xs : List String) : List String :=
  xs.foldl listInsert l

/-- One case record, with the fields consumed by the graph layer. -/
structure CaseData where
  decision_id : String := ""
  title : String := ""
  summary : String := ""
  full_text : String := ""
  judges : List String := []
  case_type : String := ""
  related_sections : List (String × List String) := []
deriving DecidableEq, Repr

/-- The fixed legal-concept vocabulary of the knowledge graph module. -/
def legalTermsKG : List String :=
  ["ลักทรัพย์", "บุกรุก", "เคหสถาน", "พยายาม", "ฆ่า", "ทำร้าย", "โจรกรรม",
   "ฉ้อโกง", "ยักยอก", "ข่มขืน", "ลูกหนี้", "เจ้าหนี้", "สัญญา", "ผิดสัญญา",
   "ค่าเสียหาย", "ดอกเบี้ย", "จำนอง", "จำนำ", "หย่า", "อุปการะ", "มรดก",
   "ที่ดิน", "กรรมสิทธิ์", "ข้าราชการ", "ทุจริต", "ประมูล", "ภาษี", "อากร",
   "ครอบครัว", "บุตร", "สมรส", "แรงงาน", "ลูกจ้าง", "นายจ้าง"]

/-- `_extract_legal_concepts`: vocabulary terms occurring in the
lowercased text. -/
def extract_legal_concepts (text : List Char) : List String :=
  let tl := lowerChars text
  legalTermsKG.filter (fun t => containsCL tl t.toList)

/-- The free text of a case (`summary or full_text`). -/
def CaseData.text (c : CaseData) : String :=
  if c.summary ≠ "" then c.summary else c.full_text

/-- `extract_entities`: mapping from entity type to extracted entity
set, as an association list in key-insertion order (the dict key is
created exactly when the code first touches it). -/
def extract_entities (c : CaseData) : List (String × List String) :=
  let caseE := if c.decision_id ≠ "" then [("case", [c.decision_id])] else []
  let js := c.judges.foldl (fun acc j =>
    let t := trimChars j.toList
    if j ≠ "" && !t.isEmpty then listInsert acc (String.mk t) else acc) []
  let judgeE := if js.isEmpty then [] else [("judge", js)]
  let ctE := if c.case_type ≠ "" && c.case_type ≠ "ไม่ระบุ" then [("case_type", [c.case_type])] else []
  let ls := c.related_sections.foldl (fun acc p =>
    p.2.foldl (fun acc s => if s ≠ "" then listInsert acc (p.1 ++ " " ++ s) else acc) acc) []
  let lawE := if ls.isEmpty then [] else [("law_section", ls)]
  let conceptE := if c.text ≠ "" then [("legal_concept", extract_legal_concepts c.text.toList)] else []
  caseE ++ judgeE ++ ctE ++ lawE ++ conceptE

/-- Merge one extraction into the global per-type entity index
(`all_entities`), preserving key-insertion order and set semantics. -/
def assocMergeOne (acc : List (String × List String)) (kv : String × List String) :
    List (String × List String) :=
  if acc.any (fun p => p.1 = kv.1) then
    acc.map (fun p => if p.1 = kv.1 then (p.1, listInsertAll p.2 kv.2) else p)
  else acc ++ [(kv.1, kv.2.foldl listInsert [])]

def assocMerge (acc : List (String × List String)) (kvs : List (String × List String)) :
    List (String × List String) :=
  kvs.foldl assocMergeOne acc

/-- The cases kept by the build loop (nonempty decision id), paired
with their extractions (`case_entities`). -/
def caseEntitiesOf (cases : List CaseData) : List (String × List (String × List String)) :=
  cases.foldl (fun acc c =>
    if c.decision_id ≠ "" then acc ++ [(c.decision_id, extract_entities c)] else acc) []

/-- The global entity index accumulated by the build loop. -/
def allEntitiesOf (cases : List CaseData) : List (String × List String) :=
  cases.foldl (fun acc c =>
    if c.decision_id ≠ "" then assocMerge acc (extract_entities c) else acc) []

/-- `self.case_documents` accumulated by the build loop (dict: a later
record with the same id overwrites). -/
def caseDocsOf (cases : List CaseData) : List (String × String) :=
  cases.foldl (fun acc c =>
    if c.decision_id ≠ "" then
      (if acc.any (fun p => p.1 = c.decision_id) then
        acc.map (fun p => if p.1 = c.decision_id then (p.1, c.text) else p)
      else acc ++ [(c.decision_id, c.text)])
    else acc) []

/-- Node phase of `build_graph`: one `add_node` per entity of each type
bucket, in index order. -/
def addNodesPhase (g : PyGraph) (allE : List (String × List String)) : PyGraph :=
  allE.foldl (fun g p => p.2.foldl (fun g e => g.add_node e p.1) g) g

def assocHasKey (l : List (String × List String)) (k : String) : Bool :=
  l.any (fun p => p.1 = k)

def assocGet (l : List (String × List String)) (k : String) : List String :=
  ((l.find? (fun p => p.1 = k)).map (fun p => p.2)).getD []

/-- `_add_case_relationships` for one case: the `contains` edges from
the case to each of its other entities, the judge-to-case-type
`handles` edges, and the judge-to-concept `deals_with` edges whose
weight accumulates the prior weight (default 0) plus one. -/
def addCaseRelsOne (g : PyGraph) (case_id : String) (entities : List (String × List String)) :
    PyGraph :=
  let g := entities.foldl (fun g te =>
    te.2.foldl (fun g e =>
      if e ≠ case_id then g.add_edge_rel case_id e "contains" else g) g) g
  let g := if assocHasKey entities "judge" && assocHasKey entities "case_type" then
      (assocGet entities "judge").foldl (fun g j =>
        (assocGet entities "case_type").foldl (fun g ct => g.add_edge_rel j ct "handles") g) g
    else g
  if assocHasKey entities "judge" && assocHasKey entities "legal_concept" then
    (assocGet entities "judge").foldl (fun g j =>
      (assocGet entities "legal_concept").foldl (fun g concept =>
        let w := (((g.findEdge j concept).bind (fun d => d.weight)).getD (Frac.ofNat 0)).add
          (Frac.ofNat 1)
        g.add_edge_w j concept "deals_with" w) g) g
  else g

/-- `_add_case_relationships`. -/
def add_case_relationships (g : PyGraph) (caseEnts : List (String × List (String × List String))) :
    PyGraph :=
  caseEnts.foldl (fun g ce => addCaseRelsOne g ce.1 ce.2) g

/-- `_add_similarity_relationships`, with the TF-IDF cosine similarity
matrix supplied as an external collaborator `sim` (scikit-learn).  The
step is skipped entirely when fewer than two documents are available. -/
def add_similarity_relationships (g : PyGraph) (cases : List CaseData)
    (docs : List (String × String)) (sim : String → String → Frac) : PyGraph :=
  let case_ids := cases.foldl (fun acc c =>
    if c.decision_id ≠ "" && docs.any (fun p => p.1 = c.decision_id) then acc ++ [c.decision_id]
    else acc) []
  if case_ids.length < 2 then g
  else
    (List.range case_ids.length).foldl (fun g i =>
      (List.range case_ids.length).foldl (fun g j =>
        if i < j && Frac.blt ((Frac.ofNat 3).divNat 10) (sim (case_ids.getD i "") (case_ids.getD j "")) then
          g.add_edge_w (case_ids.getD i "") (case_ids.getD j "") "similar_to"
            (sim (case_ids.getD i "") (case_ids.getD j ""))
        else g) g) g

/-- `build_graph`: extract entities, add typed nodes, then the case
relationship edges, then the similarity edges. -/
def build_graph (cases : List CaseData) (sim : String → String → Frac) : PyGraph :=
  let g := addNodesPhase PyGraph.empty (allEntitiesOf cases)
  let g := add_case_relationships g (caseEntitiesOf cases)
  add_similarity_relationships g cases (caseDocsOf cases) sim

/-!
The knowledge-graph state (`LegalKnowledgeGraph` fields persisted by
the snapshot store) and the traversal scorer `get_related_entities`.
-/

/-- The graph plus the auxiliary maps saved and loaded as one snapshot:
retained communities, per-type entity index, case-document map. -/
structure KGState where
  graph : PyGraph := PyGraph.empty
  communities : List (Nat × List String) := []
  entity_types : List (String × List String) := []
  case_documents : List (String × String) := []
deriving DecidableEq, Repr

/-- BFS working state: the collected results, the visited set, and the
pending queue of (node, depth, score). -/
structure BfsState where
  related : List (String × String × Frac)
  visited : List String
  queue : List (String × Nat × Frac)
deriving DecidableEq, Repr

/-- Expansion of one dequeued node over its neighbour list: each
unvisited neighbour is marked visited, scored
`score * (edge_weight / (depth + 1))`, appended to the results (unless
it is the seed) and enqueued. -/
def bfsExpand (g : PyGraph) (entity current : String) (depth : Nat) (score : Frac) :
    List String → BfsState → BfsState
  | [], s => s
  | n :: ns, s =>
    if n ∈ s.visited then bfsExpand g entity current depth score ns s
    else
      let w := g.edgeWeightD current n
      let nscore := score.mul (w.divNat (depth + 1))
      let rel := if n ≠ entity then s.related ++ [(n, g.nodeTypeD n, nscore)] else s.related
      bfsExpand g entity current depth score ns
        ⟨rel, s.visited ++ [n], s.queue ++ [(n, depth + 1, nscore)]⟩

/-- The BFS loop: while the queue is nonempty and fewer than
`max_results` results are collected, dequeue; nodes at depth at least
`max_depth` are not expanded.  Fuel-indexed; the collected structural
invariants below hold for every fuel. -/
def bfsLoop (g : PyGraph) (entity : String) (max_depth max_results : Nat) :
    Nat → BfsState → BfsState
  | 0, s => s
  | fuel + 1, s =>
    match s.queue with
    | [] => s
    | (current, depth, score) :: rest =>
      if s.related.length < max_results then
        if max_depth ≤ depth then
          bfsLoop g entity max_depth max_results fuel ⟨s.related, s.visited, rest⟩
        else
          bfsLoop g entity max_depth max_results fuel
            (bfsExpand g entity current depth score (g.neighbors current)
              ⟨s.related, s.visited, rest⟩)
      else s

/-- Fuel ample for any graph: each loop iteration dequeues one entry,
the seed is enqueued once and every other enqueued node is a previously
unvisited edge endpoint, of which there are at most twice the number of
edges. -/
def bfsFuel (g : PyGraph) : Nat := 2 * g.edges.length + g.nodes.length + 2

/-- Descending order on scored entries used by the final
`related.sort(key=score, reverse=True)`; insertion sort is a stable
sort, like the Python one. -/
def scoreGE (x y : String × String × Frac) : Prop := Frac.ble y.2.2 x.2.2 = true

instance : DecidableRel scoreGE := fun x y => by
  unfold scoreGE; infer_instance

instance : IsTotal (String × String × Frac) scoreGE := by
  constructor
  intro a b
  rcases le_total a.2.2.val b.2.2.val with h | h
  · exact Or.inr ((Frac.ble_iff _ _).mpr h)
  · exact Or.inl ((Frac.ble_iff _ _).mpr h)

instance : IsTrans (String × String × Frac) scoreGE := by
  constructor
  intro a b c hab hbc
  exact (Frac.ble_iff c.2.2 a.2.2).mpr
    (le_trans ((Frac.ble_iff c.2.2 b.2.2).mp hbc) ((Frac.ble_iff b.2.2 a.2.2).mp hab))

/-- `get_related_entities(entity, max_depth, max_results)`. -/
def get_related_entities (g : PyGraph) (entity : String) (max_depth max_results : Nat) :
    List (String × String × Frac) :=
  if !(g.mem entity) then []
  else
    let final := bfsLoop g entity max_depth max_results (bfsFuel g)
      ⟨[], [entity], [(entity, 0, Frac.ofNat 1)]⟩
    (final.related.insertionSort scoreGE).take max_results

/-- `get_community_context(entity)`: the other members of the first
retained community containing the entity, capped at 20. -/
def get_community_context (kg : KGState) (entity : String) : List String :=
  if !(kg.graph.mem entity) then []
  else
    match kg.communities.find? (fun p => entity ∈ p.2) with
    | some p => (p.2.filter (fun n => n ≠ entity)).take 20
    | none => []

/-!
The GraphRAG retriever (`graph_retriever.py`): graph context for a
case, graph-relevance scoring, query-entity extraction, discovery of
additional cases, and the full `retrieve_with_graph_context`.
-/

/-- One related-entity record of the graph context. -/
structure EntityInfo where
  entity : String
  type : String
  relevance_score : Frac
deriving DecidableEq, Repr

/-- The `graph_context` dictionary. -/
structure GraphContext where
  related_entities : List EntityInfo := []
  community_members : List (String × String) := []
  similar_cases : List EntityInfo := []
  related_judges : List EntityInfo := []
  related_concepts : List EntityInfo := []
deriving DecidableEq, Repr

/-- A search-result record (the Python result dictionaries; fields the
code reads with `.get` defaults are optional). -/
structure SearchResult where
  decision_id : String := ""
  text : String := ""
  title : String := ""
  source : Option String := none
  case_type : String := ""
  judges : List String := []
  keywords : List String := []
  similarity : Option Frac := none
  enhanced_similarity : Option Frac := none
  graph_relevance : Option Frac := none
  graph_context : Option GraphContext := none
  full_summary : String := ""
deriving DecidableEq, Repr

/-- `_get_case_graph_context(case_id, max_depth)`. -/
def get_case_graph_context (kg : KGState) (case_id : String) (max_depth : Nat) : GraphContext :=
  if !(kg.graph.mem case_id) then {}
  else
    let rel := get_related_entities kg.graph case_id max_depth 20
    let infos := rel.map (fun r => EntityInfo.mk r.1 r.2.1 r.2.2)
    { related_entities := infos
      similar_cases := infos.filter (fun i => i.type = "case")
      related_judges := infos.filter (fun i => i.type = "judge")
      related_concepts := infos.filter (fun i => i.type = "legal_concept")
      community_members := ((get_community_context kg case_id).take 10).map
        (fun m => (m, kg.graph.nodeTypeD m)) }

/-- `_calculate_graph_relevance`: sum of halved scores of query-matched
related entities, plus a capped community bonus and a capped
similar-case bonus, clamped to 1. -/
def calculate_graph_relevance (query : String) (ctx : GraphContext) : Frac :=
  let query_terms := splitWsCL (lowerChars query.toList)
  let s := ctx.related_entities.foldl (fun acc ei =>
    if query_terms.any (fun t => containsCL (lowerChars ei.entity.toList) t) then
      acc.add (ei.relevance_score.mul ⟨1, 1⟩)
    else acc) (Frac.ofNat 0)
  let community_score := (Frac.ofNat ctx.community_members.length).mul ⟨1, 9⟩
  let s := s.add (community_score.fmin ⟨3, 9⟩)
  let s := s.add (((Frac.ofNat ctx.similar_cases.length).mul ⟨1, 19⟩).fmin ⟨1, 4⟩)
  s.fmin (Frac.ofNat 1)

/-- Count of leading ASCII digits. -/
def countLeadingDigits : List Char → Nat
  | [] => 0
  | c :: cs => if c.isDigit then countLeadingDigits cs + 1 else 0

/-- Match of the case-number pattern (two to six digits, slash, two to
four digits; both parts greedy) anchored at the head of the list,
returning the matched text and the remainder. -/
def matchCaseNumAt (l : List Char) : Option (List Char × List Char) :=
  let d := countLeadingDigits l
  if 2 ≤ d && d ≤ 6 then
    match l.drop d with
    | '/' :: r2 =>
      let d2 := countLeadingDigits r2
      if 2 ≤ d2 then
        let m := min d2 4
        some (l.take d ++ '/' :: r2.take m, r2.drop m)
      else none
    | _ => none
  else none

/-- `re.findall` of the case-number pattern: leftmost nonoverlapping
matches. -/
def findCaseNumbers : Nat → List Char → List String
  | 0, _ => []
  | _, [] => []
  | fuel + 1, l =>
    match matchCaseNumAt l with
    | some (m, rest) => String.mk m :: findCaseNumbers fuel rest
    | none => findCaseNumbers fuel l.tail

/-- Match of the judge-mention pattern (the literal honorific, optional
whitespace, then a nonempty word-character run) anchored at the head,
returning the captured name and the remainder. -/
def matchJudgeAt (l : List Char) : Option (List Char × List Char) :=
  let lit := "ผู้พิพากษา".toList
  if lit.isPrefixOf l then
    let r := (l.drop lit.length).dropWhile Char.isWhitespace
    let w := r.takeWhile isWordChar
    if w.isEmpty then none else some (w, r.drop w.length)
  else none

/-- `re.findall` of the judge-mention pattern, collecting the captured
names. -/
def findJudgeMentions : Nat → List Char → List String
  | 0, _ => []
  | _, [] => []
  | fuel + 1, l =>
    match matchJudgeAt l with
    | some (m, rest) => String.mk m :: findJudgeMentions fuel rest
    | none => findJudgeMentions fuel l.tail

/-- `re.search` of the judge-mention pattern: the first captured name,
if any. -/
def searchJudgeMention (query : String) : Option String :=
  (findJudgeMentions (query.toList.length + 1) query.toList).head?

/-- The (shorter) legal-concept vocabulary of the retriever module. -/
def legalConceptsRetriever : List String :=
  ["ลักทรัพย์", "บุกรุก", "เคหสถาน", "พยายาม", "ฆ่า", "ทำร้าย", "โจรกรรม",
   "ฉ้อโกง", "ยักยอก", "ข่มขืน", "ลูกหนี้", "เจ้าหนี้", "สัญญา", "ผิดสัญญา",
   "ค่าเสียหาย", "ดอกเบี้ย", "จำนอง", "จำนำ", "หย่า", "อุปการะ", "มรดก",
   "ที่ดิน", "กรรมสิทธิ์", "ข้าราชการ", "ทุจริต", "ประมูล", "ภาษี", "อากร"]

/-- Case-type keywords checked by the retriever. -/
def caseTypesRetriever : List String :=
  ["อาญา", "แพ่ง", "แรงงาน", "ภาษี", "ปกครอง", "ครอบครัว"]

/-- `_extract_query_entities`: case numbers, judge mentions, concept
keyword hits and case-type keyword hits, in that order. -/
def extract_query_entities (query : String) : List String :=
  let ql := query.toList
  findCaseNumbers (ql.length + 1) ql
    ++ findJudgeMentions (ql.length + 1) ql
    ++ legalConceptsRetriever.filter (fun c => containsCL ql c.toList)
    ++ caseTypesRetriever.filter (fun c => containsCL ql c.toList)

/-- The result record fabricated for a graph-discovered case. -/
def graphDiscoveryResult (viaEntity related_entity : String) (score : Frac) : SearchResult :=
  { decision_id := related_entity
    similarity := some (score.mul ⟨7, 9⟩)
    enhanced_similarity := some (score.mul ⟨7, 9⟩)
    graph_relevance := some score
    source := some "graph_discovery"
    text := "Case discovered through graph relationship with " ++ viaEntity
    title := "Related case: " ++ related_entity
    case_type := "ไม่ระบุ"
    judges := []
    keywords := [] }

/-- `_find_additional_relevant_cases(query, existing_case_ids,
max_results)`. -/
def find_additional_relevant_cases (kg : KGState) (query : String)
    (existing_case_ids : List String) (max_results : Nat) : List SearchResult :=
  (extract_query_entities query).foldl (fun acc ent =>
    if kg.graph.mem ent then
      (get_related_entities kg.graph ent 2 10).foldl (fun acc r =>
        if r.2.1 = "case" && !(existing_case_ids.contains r.1) && acc.length < max_results then
          acc ++ [graphDiscoveryResult ent r.1 r.2.2]
        else acc) acc
    else acc) []

/-- The main enhancement loop of `retrieve_with_graph_context` over the
vector candidates: duplicates and empty ids are dropped, each retained
candidate gains its graph context, graph relevance, and the blended
enhanced similarity. -/
def enhanceLoop (kg : KGState) (query : String) (max_graph_depth : Nat)
    (context_weight : Frac) :
    List SearchResult → List SearchResult × List String → List SearchResult × List String
  | [], st => st
  | r :: rs, (acc, seen) =>
    if r.decision_id = "" || seen.contains r.decision_id then
      enhanceLoop kg query max_graph_depth context_weight rs (acc, seen)
    else
      let seen := seen ++ [r.decision_id]
      let ctx := get_case_graph_context kg r.decision_id max_graph_depth
      let original_score := r.similarity.getD ⟨1, 1⟩
      let graph_score := calculate_graph_relevance query ctx
      let enhanced := (((Frac.ofNat 1).sub context_weight).mul original_score).add
        (context_weight.mul graph_score)
      let r := { r with graph_context := some ctx
                        enhanced_similarity := some enhanced
                        graph_relevance := some graph_score }
      enhanceLoop kg query max_graph_depth context_weight rs (acc ++ [r], seen)

/-- Sort key of the final ranking
(`x.get("enhanced_similarity", x.get("similarity", 0))`). -/
def rankKey (r : SearchResult) : Frac := r.enhanced_similarity.getD (r.similarity.getD (Frac.ofNat 0))

/-- Descending order on the rank key. -/
def rankGE (x y : SearchResult) : Prop := Frac.ble (rankKey y) (rankKey x) = true

instance : DecidableRel rankGE := fun x y => by
  unfold rankGE; infer_instance

instance : IsTotal SearchResult rankGE := by
  constructor
  intro a b
  rcases le_total (rankKey a).val (rankKey b).val with h | h
  · exact Or.inr ((Frac.ble_iff _ _).mpr h)
  · exact Or.inl ((Frac.ble_iff _ _).mpr h)

instance : IsTrans SearchResult rankGE := by
  constructor
  intro a b c hab hbc
  exact (Frac.ble_iff _ _).mpr
    (le_trans ((Frac.ble_iff _ _).mp hbc) ((Frac.ble_iff _ _).mp hab))

/-- `retrieve_with_graph_context(query, vector_results,
max_graph_depth, context_weight)`. -/
def retrieve_with_graph_context (kg : KGState) (query : String)
    (vector_results : List SearchResult) (max_graph_depth : Nat) (context_weight : Frac) :
    List SearchResult :=
  if vector_results.isEmpty then []
  else
    let st := enhanceLoop kg query max_graph_depth context_weight vector_results ([], [])
    let enhanced := st.1
    let additional := find_additional_relevant_cases kg query
      (enhanced.map (fun r => r.decision_id)) 5
    let merged := additional.foldl (fun (p : List SearchResult × List String) c =>
      if !(p.2.contains c.decision_id) then (p.1 ++ [c], p.2 ++ [c.decision_id]) else p)
      (enhanced, st.2)
    merged.1.insertionSort rankGE

/-!
Traditional search (`traditional_search.py`), the combined router
(`search_manager.py`), the GraphRAG search engine wrapper
(`graphrag_search.py`) and the snapshot store (`save_graph`,
`load_graph`).
-/

/-- One metadata record of the vector store (fields read by the
traditional search paths; `judges_normalized` is produced by the data
loader as the normalised judge names). -/
structure Metadata where
  decision_id : String := ""
  title : String := ""
  source : String := ""
  case_type : String := "ไม่ระบุ"
  judges : List String := []
  judges_normalized : List String := []
  keywords : List String := []
  full_summary : String := ""
deriving DecidableEq, Repr

/-- The traditional search engine state: parallel documents and
metadata. -/
structure TradEngine where
  docs : List String := []
  metadatas : List Metadata := []
deriving DecidableEq, Repr

/-- Rightmost index of a character, or -1 (`str.rfind`). -/
def rfindCL (s : List Char) (c : Char) : Int :=
  (s.foldl (fun (p : Int × Int) ch => (p.1 + 1, if ch = c then p.1 else p.2)) (0, -1)).2

/-- `truncate_text` with the default display length 150. -/
def truncate_text (text : String) : String :=
  let tl := text.toList
  if tl.length ≤ 150 then text
  else
    let truncated := tl.take 150
    let cut_point := max (rfindCL truncated ' ') (rfindCL truncated '.')
    let kept := if 120 < cut_point then tl.take cut_point.toNat else truncated
    String.mk kept ++ "..."

/-- The result record built by every traditional search hit. -/
def tradResult (doc : String) (m : Metadata) : SearchResult :=
  { text := truncate_text doc
    title := m.title
    source := some m.source
    decision_id := m.decision_id
    case_type := m.case_type
    judges := m.judges
    similarity := some (Frac.ofNat 1)
    keywords := m.keywords
    full_summary := m.full_summary }

/-- Loop of `search_by_case_number`: exact equality of the stripped
query against the decision id, tolerating the slash-dash substitution
in either direction; duplicate ids are skipped and the loop breaks
once `k` results are collected. -/
def sbcnLoop (clean : List Char) (k : Nat) :
    List (String × Metadata) → List SearchResult → List String → List SearchResult
  | [], res, _ => res
  | (doc, m) :: rest, res, seen =>
    let did := m.decision_id
    if clean = did.toList || replaceChar '/' '-' clean = did.toList
        || replaceChar '-' '/' clean = did.toList then
      if seen.contains did then sbcnLoop clean k rest res seen
      else
        let res := res ++ [tradResult doc m]
        if k ≤ res.length then res else sbcnLoop clean k rest res (seen ++ [did])
    else sbcnLoop clean k rest res seen

/-- `search_by_case_number(case_number, k)`. -/
def search_by_case_number (E : TradEngine) (case_number : String) (k : Nat) :
    List SearchResult :=
  sbcnLoop (trimChars case_number.toList) k (E.docs.zip E.metadatas) [] []

/-- The per-record match test of `search_by_judge`: a judge of the
record among the fuzzy-matched judges, or a normalised-name
containment against the precomputed normalised judges, or a plain
substring hit of the query name (raw lowercased, or normalised) in the
lowercased document text. -/
def judgeMatch (judge_name : String) (query_normalized : List Char)
    (matched_judges : List (List Char)) (doc : String) (m : Metadata) : Bool :=
  m.judges.any (fun j => matched_judges.contains j.toList)
  || m.judges_normalized.any (fun jn =>
      containsCL jn.toList query_normalized || containsCL query_normalized jn.toList)
  || (let tl := lowerChars doc.toList
      containsCL tl (lowerChars judge_name.toList) || containsCL tl query_normalized)

/-- Loop of `search_by_judge`. -/
def sbjLoop (judge_name : String) (query_normalized : List Char)
    (matched_judges : List (List Char)) (k : Nat) :
    List (String × Metadata) → List SearchResult → List String → List SearchResult
  | [], res, _ => res
  | (doc, m) :: rest, res, seen =>
    if judgeMatch judge_name query_normalized matched_judges doc m then
      if seen.contains m.decision_id then
        sbjLoop judge_name query_normalized matched_judges k rest res seen
      else
        let res := res ++ [tradResult doc m]
        if k ≤ res.length then res
        else sbjLoop judge_name query_normalized matched_judges k rest res
          (seen ++ [m.decision_id])
    else sbjLoop judge_name query_normalized matched_judges k rest res seen

/-- `search_by_judge(judge_name, k)`: fuzzy matching against the pooled
judge list (threshold 0.5), then the per-record loop. -/
def search_by_judge (E : TradEngine) (judge_name : String) (k : Nat) : List SearchResult :=
  let query_normalized := normalize_judge_name judge_name.toList
  let all_judges := E.metadatas.foldl (fun acc m => acc ++ m.judges) []
  let matched := find_best_match judge_name.toList (all_judges.map String.toList) ⟨1, 1⟩
  sbjLoop judge_name query_normalized matched k (E.docs.zip E.metadatas) [] []

/-- Loop of `search_by_case_type`. -/
def sbctLoop (case_type : String) (k : Nat) :
    List (String × Metadata) → List SearchResult → List String → List SearchResult
  | [], res, _ => res
  | (doc, m) :: rest, res, seen =>
    if m.case_type = case_type then
      if seen.contains m.decision_id then sbctLoop case_type k rest res seen
      else
        let res := res ++ [tradResult doc m]
        if k ≤ res.length then res
        else sbctLoop case_type k rest res (seen ++ [m.decision_id])
    else sbctLoop case_type k rest res seen

/-- `search_by_case_type(case_type, k)`. -/
def search_by_case_type (E : TradEngine) (case_type : String) (k : Nat) : List SearchResult :=
  sbctLoop case_type k (E.docs.zip E.metadatas) [] []

/-- `extract_case_type` (legal utilities): first keyword of the mapping
contained in the lowercased query. -/
def caseTypeMapping : List (String × String) :=
  [("อาญา", "อาญา"), ("แพ่ง", "แพ่ง"), ("แรงงาน", "แรงงาน"), ("ภาษี", "ภาษี"),
   ("คดีอาญา", "อาญา"), ("คดีแพ่ง", "แพ่ง"), ("คดีแรงงาน", "แรงงาน"), ("คดีภาษี", "ภาษี"),
   ("ปกครอง", "ปกครอง"), ("ครอบครัว", "ครอบครัว"), ("ล้มละลาย", "ล้มละลาย"),
   ("ทรัพย์สินทางปัญญา", "ทรัพย์สินทางปัญญา")]

def extract_case_type (text : String) : Option String :=
  let tl := lowerChars text.toList
  (caseTypeMapping.find? (fun p => containsCL tl (lowerChars p.1.toList))).map (fun p => p.2)

/-- Whether the query contains the router case-number pattern (one or
more digits, slash, one or more digits). -/
def hasCaseNumberPattern : List Char → Bool
  | [] => false
  | c :: cs =>
    (c.isDigit && (match cs.dropWhile Char.isDigit with
      | '/' :: d :: _ => d.isDigit
      | _ => false))
    || hasCaseNumberPattern cs

/-!
The GraphRAG engine wrapper.  The snapshot store serialises the
`KGState` with pickle; pickling round trips in-memory values, so the
persisted form is modelled as the state itself, with explicit
constructors for a missing and an unreadable file.
-/

/-- A snapshot file on disk. -/
inductive SnapshotFile where
  | missing
  | corrupt
  | good (data : KGState)
deriving DecidableEq, Repr

/-- `save_graph`: pickle the four snapshot fields. -/
def save_graph (st : KGState) : SnapshotFile := .good st

/-- `load_graph`: `False` when the file is missing or unpicklable (the
exception is caught), otherwise replace the four fields and return
`True`. -/
def load_graph (st : KGState) (f : SnapshotFile) : KGState × Bool :=
  match f with
  | .missing => (st, false)
  | .corrupt => (st, false)
  | .good data =>
    ({ st with graph := data.graph
               communities := data.communities
               entity_types := data.entity_types
               case_documents := data.case_documents }, true)

/-- `detect_communities`, with the Louvain partition supplied as an
external collaborator (`python-louvain`); `none` models a partitioning
failure, which leaves the communities untouched.  Detected communities
are grouped in first-occurrence order and those smaller than 3 members
are dropped. -/
def detect_communities (st : KGState) (partition : Option (List (String × Nat))) : KGState :=
  match partition with
  | none => st
  | some part =>
    let cids := part.foldl (fun acc p => if acc.contains p.2 then acc else acc ++ [p.2]) []
    let grouped := cids.map (fun cid => (cid, (part.filter (fun p => p.2 = cid)).map (fun p => p.1)))
    { st with communities := grouped.filter (fun c => 3 ≤ c.2.length) }

/-- `load_or_build_graph(cases_data)`: a loadable snapshot wins;
otherwise an absent or empty corpus is a `ValueError`, and a nonempty
corpus is built, community-detected and saved. -/
def load_or_build_graph (st : KGState) (f : SnapshotFile)
    (partition : Option (List (String × Nat))) (sim : String → String → Frac)
    (cases_data : Option (List CaseData)) : Except String KGState :=
  let r := load_graph st f
  if r.2 then .ok r.1
  else
    match cases_data with
    | none => .error "No cases data provided for graph building"
    | some [] => .error "No cases data provided for graph building"
    | some cases =>
      let built := { st with graph := build_graph cases sim
                             case_documents := caseDocsOf cases }
      .ok (detect_communities built partition)

/-- `search_with_graphrag(query, vector_results, k)`: the enhancement
call is supplied as its outcome (`Except.error` models a raised
exception, caught by the handler which falls back to the vector
results). -/
def search_with_graphrag (is_loaded : Bool) (retrieved : Except String (List SearchResult))
    (vector_results : List SearchResult) (k : Nat) : Except String (List SearchResult) :=
  if !is_loaded then .error "GraphRAG engine not initialized"
  else
    match retrieved with
    | .ok enhanced => .ok (enhanced.take k)
    | .error _ => .ok vector_results

/-- The normal-path GraphRAG search used by the router
(`_search_with_graphrag`): vector candidates from the external vector
engine, enhanced by the retriever, truncated to `k`. -/
def router_graphrag (kg : KGState) (vecFn : String → Nat → List SearchResult)
    (query : String) (k : Nat) : List SearchResult :=
  (retrieve_with_graph_context kg query (vecFn query k) 3 ⟨3, 9⟩).take k

/-- Steps 2-6 of `_combined_search` (everything after the case-number
step): the judge-filter step, the judge-mention step, the case-type
filter step (merged with GraphRAG), the query case-type step, and the
GraphRAG fallback. -/
def combined_search_rest (E : TradEngine) (kg : KGState)
    (vecFn : String → Nat → List SearchResult) (query : String)
    (case_type judge_name : Option String) (k : Nat) : List SearchResult :=
  let judgeStep := match judge_name with
    | some jn => search_by_judge E jn k
    | none => []
  if !judgeStep.isEmpty then judgeStep
  else
    let mentionStep := match searchJudgeMention query with
      | some j => search_by_judge E j k
      | none => []
    if !mentionStep.isEmpty then mentionStep
    else
      let ctStep := match case_type with
        | some ct => search_by_case_type E ct k
        | none => []
      if !ctStep.isEmpty then
        let graphrag_results := router_graphrag kg vecFn query k
        let merged := (ctStep ++ graphrag_results).foldl
          (fun (p : List SearchResult × List String) r =>
            if !(p.2.contains r.decision_id) then (p.1 ++ [r], p.2 ++ [r.decision_id]) else p)
          ([], [])
        merged.1.take k
      else
        match extract_case_type query with
        | some ct =>
          let r := search_by_case_type E ct k
          if !r.isEmpty then r else router_graphrag kg vecFn query k
        | none => router_graphrag kg vecFn query k

/-- `_combined_search(query, case_type, judge_name, k)`. -/
def combined_search (E : TradEngine) (kg : KGState)
    (vecFn : String → Nat → List SearchResult) (query : String)
    (case_type judge_name : Option String) (k : Nat) : List SearchResult :=
  let caseNumStep := if hasCaseNumberPattern query.toList
    then search_by_case_number E query k else []
  if !caseNumStep.isEmpty then caseNumStep
  else combined_search_rest E kg vecFn query case_type judge_name k

/-!
Structural invariants of the BFS traversal, used by the contract
theorem for `get_related_entities`.
-/

/-- Structural invariant of the BFS state with respect to a seed: the
collected ids are duplicate free, all marked visited, and never the
seed. -/
def BfsInv (entity : String) (s : BfsState) : Prop :=
  (s.related.map (fun x => x.1)).Nodup
  ∧ (∀ x ∈ s.related, x.1 ∈ s.visited)
  ∧ (∀ x ∈ s.related, x.1 ≠ entity)

theorem bfsExpand_inv (g : PyGraph) (entity current : String) (depth : Nat) (score : Frac) :
    ∀ (ns : List String) (s : BfsState), BfsInv entity s →
    BfsInv entity (bfsExpand g entity current depth score ns s) := by
  intro ns
  induction ns with
  | nil => intro s h; simpa [bfsExpand] using h
  | cons n ns ih =>
    intro s h
    obtain ⟨hnd, hvis, hne⟩ := h
    simp only [bfsExpand]
    by_cases hmem : n ∈ s.visited
    · rw [if_pos hmem]
      exact ih s ⟨hnd, hvis, hne⟩
    · rw [if_neg hmem]
      apply ih
      have hstep : ∀ rel : List (String × String × Frac),
          (rel = s.related ∨ (n ≠ entity ∧
            rel = s.related ++ [(n, g.nodeTypeD n,
              score.mul ((g.edgeWeightD current n).divNat (depth + 1)))])) →
          BfsInv entity ⟨rel, s.visited ++ [n],
            s.queue ++ [(n, depth + 1, score.mul ((g.edgeWeightD current n).divNat (depth + 1)))]⟩ := by
        intro rel hrel
        rcases hrel with hrel | ⟨hent, hrel⟩
        · subst hrel
          exact ⟨hnd, fun x hx => List.mem_append_left _ (hvis x hx), hne⟩
        · subst hrel
          refine ⟨?_, ?_, ?_⟩
          · simp only [List.map_append, List.nodup_append]
            refine ⟨hnd, by simp, ?_⟩
            intro a ha hb
            simp only [List.map_cons, List.map_nil, List.mem_singleton] at hb
            subst hb
            rcases List.mem_map.mp ha with ⟨x, hx, hx1⟩
            exact hmem (hx1 ▸ hvis x hx)
          · intro x hx
            rcases List.mem_append.mp hx with hx | hx
            · exact List.mem_append_left _ (hvis x hx)
            · simp only [List.mem_singleton] at hx
              subst hx; simp
          · intro x hx
            rcases List.mem_append.mp hx with hx | hx
            · exact hne x hx
            · simp only [List.mem_singleton] at hx
              subst hx; exact hent
      by_cases hent : n = entity
      · have := hstep s.related (Or.inl rfl)
        rw [if_neg (by simp [hent])]
        exact this
      · have := hstep _ (Or.inr ⟨hent, rfl⟩)
        rw [if_pos hent]
        exact this

theorem bfsLoop_inv (g : PyGraph) (entity : String) (D M : Nat) :
    ∀ (fuel : Nat) (s : BfsState), BfsInv entity s →
    BfsInv entity (bfsLoop g entity D M fuel s) := by
  intro fuel
  induction fuel with
  | zero => intro s h; simpa [bfsLoop] using h
  | succ n ih =>
    intro s h
    match hq : s.queue with
    | [] => simpa [bfsLoop, hq] using h
    | (current, depth, score) :: rest =>
      simp only [bfsLoop, hq]
      by_cases hlen : s.related.length < M
      · rw [if_pos hlen]
        by_cases hd : D ≤ depth
        · rw [if_pos hd]
          exact ih _ ⟨h.1, h.2.1, h.2.2⟩
        · rw [if_neg hd]
          exact ih _ (bfsExpand_inv g entity current depth score _ _ ⟨h.1, h.2.1, h.2.2⟩)
      · rw [if_neg hlen]
        exact h

/-- CLAIM C2 (confirmed).  For every graph, seed entity, depth bound D
and result bound M, `get_related_entities` never includes the seed,
contains no entity twice, returns at most M results, and is sorted by
non-increasing score. -/
theorem related_entities_contract (g : PyGraph) (entity : String) (D M : Nat) :
    (∀ x ∈ get_related_entities g entity D M, x.1 ≠ entity)
    ∧ ((get_related_entities g entity D M).map (fun x => x.1)).Nodup
    ∧ (get_related_entities g entity D M).length ≤ M
    ∧ (get_related_entities g entity D M).Pairwise
        (fun x y => (y.2.2).val ≤ (x.2.2).val) := by
  by_cases hmem : g.mem entity
  · have hinv : BfsInv entity
        (bfsLoop g entity D M (bfsFuel g) ⟨[], [entity], [(entity, 0, Frac.ofNat 1)]⟩) := by
      apply bfsLoop_inv
      refine ⟨by simp, by simp, by simp⟩
    set final := bfsLoop g entity D M (bfsFuel g) ⟨[], [entity], [(entity, 0, Frac.ofNat 1)]⟩
    have hres : get_related_entities g entity D M
        = (final.related.insertionSort scoreGE).take M := by
      simp [get_related_entities, hmem, final]
    have hperm : (final.related.insertionSort scoreGE).Perm final.related :=
      List.perm_insertionSort scoreGE final.related
    have hsub : (get_related_entities g entity D M).Sublist
        (final.related.insertionSort scoreGE) := by
      rw [hres]; exact List.take_sublist _ _
    refine ⟨?_, ?_, ?_, ?_⟩
    · intro x hx
      have : x ∈ final.related := hperm.mem_iff.mp (hsub.subset hx)
      exact hinv.2.2 x this
    · have hnd : ((final.related.insertionSort scoreGE).map (fun x => x.1)).Nodup :=
        ((hperm.map (fun x => x.1)).nodup_iff).mpr hinv.1
      exact (hsub.map (fun x => x.1)).nodup hnd
    · rw [hres, List.length_take]
      exact min_le_left _ _
    · have hsorted : (final.related.insertionSort scoreGE).Sorted scoreGE :=
        List.sorted_insertionSort scoreGE final.related
      exact List.Pairwise.sublist hsub (hsorted.imp (fun h => (Frac.ble_iff _ _).mp h))
  · simp [get_related_entities, hmem]

/-!
A concrete graph witnessing the discovery-order truncation of the
traversal scorer (claim C9): from seed S, neighbours A and B (unit
weight) fill the result bound in the first expansion, while C, two
hops away through a heavy edge, would score far higher.
-/

def bfsOrderGraph : PyGraph :=
  { nodes := [("S", some "case"), ("A", some "judge"), ("B", some "judge"),
              ("C", some "legal_concept")]
    edges := [("S", "A", ⟨"contains", none⟩), ("S", "B", ⟨"contains", none⟩),
              ("B", "C", ⟨"deals_with", some (Frac.ofNat 10)⟩)] }

/-- CLAIM C9 (confirmed).  `get_related_entities` selects by
breadth-first discovery order, not by score: in `bfsOrderGraph` with
maxDepth 2 and maxResults 2, entity C is omitted although the same
traversal with a larger result bound discovers it within depth 2 with
score 5, strictly higher than the score 1 of the returned entities. -/
theorem bfs_truncates_by_discovery_order :
    ("C" ∉ (get_related_entities bfsOrderGraph "S" 2 2).map (fun x => x.1))
    ∧ (∃ sc, ("C", "legal_concept", sc) ∈ get_related_entities bfsOrderGraph "S" 2 10
        ∧ ∃ x ∈ get_related_entities bfsOrderGraph "S" 2 2, x.2.2.val < sc.val) := by
  refine ⟨by decide, ⟨⟨10, 1⟩, by decide, ⟨("A", "judge", ⟨1, 0⟩), by decide, ?_⟩⟩⟩
  show ((⟨1, 0⟩ : Frac).val < (⟨10, 1⟩ : Frac).val)
  simp only [Frac.val]
  norm_num

/-!
Nonnegativity of traversal scores (for graphs whose stored edge
weights are nonnegative, as all built graphs are), and the range of
the graph-relevance and blended scores.
-/

/-- All stored edge weights of the graph are nonnegative (decidable
form). -/
def weightsNonnegB (g : PyGraph) : Bool :=
  g.edges.all (fun e => match e.2.2.weight with
    | some w => Frac.ble (Frac.ofNat 0) w
    | none => true)

theorem Frac.val_nonneg_of_ble {w : Frac} (h : Frac.ble (Frac.ofNat 0) w = true) :
    0 ≤ w.val := by
  have := (Frac.ble_iff (Frac.ofNat 0) w).mp h
  rwa [Frac.val_ofNat] at this

theorem edgeWeightD_nonneg {g : PyGraph} (hg : weightsNonnegB g = true) (u v : String) :
    0 ≤ (g.edgeWeightD u v).val := by
  unfold PyGraph.edgeWeightD
  match hfe : g.findEdge u v with
  | none =>
    simp only [hfe, Option.none_bind, Option.getD_none, Frac.val_ofNat]
    norm_num
  | some d =>
    match hw : d.weight with
    | none =>
      simp only [hfe, Option.some_bind, hw, Option.getD_none, Frac.val_ofNat]
      norm_num
    | some w =>
      simp only [hfe, Option.some_bind, hw, Option.getD_some]
      unfold PyGraph.findEdge at hfe
      match hf : g.edges.find? (fun e => sameEdge u v e.1 e.2.1) with
      | none => rw [hf] at hfe; exact absurd hfe (by simp)
      | some e =>
        rw [hf] at hfe
        have hfe2 : e.2.2 = d := by
          have : some e.2.2 = some d := hfe
          exact Option.some.inj this
        have he : e ∈ g.edges := List.mem_of_find?_eq_some hf
        have := (List.all_eq_true.mp hg) e he
        rw [hfe2] at this
        rw [hw] at this
        exact Frac.val_nonneg_of_ble this

/-- Nonnegativity invariant of the BFS state. -/
def BfsNonneg (s : BfsState) : Prop :=
  (∀ x ∈ s.related, 0 ≤ x.2.2.val) ∧ (∀ q ∈ s.queue, 0 ≤ q.2.2.val)

theorem bfsExpand_nonneg {g : PyGraph} (hg : weightsNonnegB g = true)
    (entity current : String) (depth : Nat) (score : Frac) (hs : 0 ≤ score.val) :
    ∀ (ns : List String) (s : BfsState), BfsNonneg s →
    BfsNonneg (bfsExpand g entity current depth score ns s) := by
  intro ns
  induction ns with
  | nil => intro s h; simpa [bfsExpand] using h
  | cons n ns ih =>
    intro s h
    simp only [bfsExpand]
    by_cases hmem : n ∈ s.visited
    · rw [if_pos hmem]; exact ih s h
    · rw [if_neg hmem]
      apply ih
      have hns : 0 ≤ (score.mul ((g.edgeWeightD current n).divNat (depth + 1))).val := by
        rw [Frac.val_mul, Frac.val_divNat _ (Nat.succ_pos depth)]
        have hw := edgeWeightD_nonneg hg current n
        have : (0 : ℚ) ≤ ((depth + 1 : Nat) : ℚ) := by positivity
        exact mul_nonneg hs (div_nonneg hw this)
      constructor
      · intro x hx
        by_cases hent : n = entity
        · rw [if_neg (by simp [hent])] at hx
          exact h.1 x hx
        · rw [if_pos hent] at hx
          rcases List.mem_append.mp hx with hx | hx
          · exact h.1 x hx
          · simp only [List.mem_singleton] at hx
            subst hx; exact hns
      · intro q hq
        rcases List.mem_append.mp hq with hq | hq
        · exact h.2 q hq
        · simp only [List.mem_singleton] at hq
          subst hq; exact hns

theorem bfsLoop_nonneg {g : PyGraph} (hg : weightsNonnegB g = true)
    (entity : String) (D M : Nat) :
    ∀ (fuel : Nat) (s : BfsState), BfsNonneg s →
    BfsNonneg (bfsLoop g entity D M fuel s) := by
  intro fuel
  induction fuel with
  | zero => intro s h; simpa [bfsLoop] using h
  | succ n ih =>
    intro s h
    match hq : s.queue with
    | [] => simpa [bfsLoop, hq] using h
    | (current, depth, score) :: rest =>
      simp only [bfsLoop, hq]
      have hrest : ∀ q ∈ rest, 0 ≤ (q.2.2).val := fun q hqm =>
        h.2 q (by rw [hq]; exact List.mem_cons_of_mem _ hqm)
      by_cases hlen : s.related.length < M
      · rw [if_pos hlen]
        by_cases hd : D ≤ depth
        · rw [if_pos hd]
          exact ih _ ⟨h.1, hrest⟩
        · rw [if_neg hd]
          have hsc : 0 ≤ score.val := h.2 (current, depth, score) (by rw [hq]; simp)
          exact ih _ (bfsExpand_nonneg hg entity current depth score hsc _ _ ⟨h.1, hrest⟩)
      · rw [if_neg hlen]
        exact h

theorem related_entities_nonneg {g : PyGraph} (hg : weightsNonnegB g = true)
    (entity : String) (D M : Nat) :
    ∀ x ∈ get_related_entities g entity D M, 0 ≤ x.2.2.val := by
  intro x hx
  by_cases hmem : g.mem entity
  · have hinv : BfsNonneg
        (bfsLoop g entity D M (bfsFuel g) ⟨[], [entity], [(entity, 0, Frac.ofNat 1)]⟩) := by
      apply bfsLoop_nonneg hg
      refine ⟨by simp, ?_⟩
      intro q hqm
      simp only [List.mem_singleton] at hqm
      subst hqm
      rw [Frac.val_ofNat]
      norm_num
    have hres : get_related_entities g entity D M
        = ((bfsLoop g entity D M (bfsFuel g)
            ⟨[], [entity], [(entity, 0, Frac.ofNat 1)]⟩).related.insertionSort scoreGE).take M := by
      simp [get_related_entities, hmem]
    rw [hres] at hx
    have hx2 := (List.perm_insertionSort scoreGE _).mem_iff.mp ((List.take_sublist _ _).subset hx)
    exact hinv.1 x hx2
  · rw [get_related_entities, if_pos (by simp [hmem])] at hx
    simp at hx

theorem case_context_nonneg {kg : KGState} (hg : weightsNonnegB kg.graph = true)
    (case_id : String) (d : Nat) :
    ∀ ei ∈ (get_case_graph_context kg case_id d).related_entities,
      0 ≤ ei.relevance_score.val := by
  intro ei hei
  unfold get_case_graph_context at hei
  by_cases hmem : kg.graph.mem case_id
  · rw [if_neg (by simp [hmem])] at hei
    simp only [List.mem_map] at hei
    rcases hei with ⟨r, hr, hrei⟩
    have := related_entities_nonneg hg case_id d 20 r hr
    rw [← hrei]
    exact this
  · rw [if_pos (by simp [hmem])] at hei
    simp at hei

theorem relevance_fold_nonneg (query_terms : List (List Char)) :
    ∀ (l : List EntityInfo) (acc : Frac), 0 ≤ acc.val →
    (∀ ei ∈ l, 0 ≤ ei.relevance_score.val) →
    0 ≤ (l.foldl (fun acc ei =>
      if query_terms.any (fun t => containsCL (lowerChars ei.entity.toList) t) then
        acc.add (ei.relevance_score.mul ⟨1, 1⟩)
      else acc) acc).val := by
  intro l
  induction l with
  | nil => intro acc hacc _; simpa using hacc
  | cons ei l ih =>
    intro acc hacc hl
    simp only [List.foldl_cons]
    apply ih
    · by_cases hc : query_terms.any (fun t => containsCL (lowerChars ei.entity.toList) t) = true
      · rw [if_pos hc, Frac.val_add, Frac.val_mul]
        have h1 : 0 ≤ ei.relevance_score.val := hl ei (by simp)
        have h2 : (0 : ℚ) ≤ (⟨1, 1⟩ : Frac).val := by
          simp only [Frac.val]; norm_num
        positivity
      · rw [if_neg hc]; exact hacc
    · intro x hx; exact hl x (List.mem_cons_of_mem _ hx)

/-- Range of `_calculate_graph_relevance`: within the unit interval
whenever the related-entity scores of the context are nonnegative. -/
theorem relevance_bounds (query : String) (ctx : GraphContext)
    (hctx : ∀ ei ∈ ctx.related_entities, 0 ≤ ei.relevance_score.val) :
    0 ≤ (calculate_graph_relevance query ctx).val
    ∧ (calculate_graph_relevance query ctx).val ≤ 1 := by
  unfold calculate_graph_relevance
  set qts := splitWsCL (lowerChars query.toList)
  set s1 := ctx.related_entities.foldl (fun acc ei =>
    if qts.any (fun t => containsCL (lowerChars ei.entity.toList) t) then
      acc.add (ei.relevance_score.mul ⟨1, 1⟩)
    else acc) (Frac.ofNat 0) with hs1
  have h1 : 0 ≤ s1.val := by
    rw [hs1]
    apply relevance_fold_nonneg
    · rw [Frac.val_ofNat]; norm_num
    · exact hctx
  have hc1 : 0 ≤ ((Frac.ofNat ctx.community_members.length).mul ⟨1, 9⟩).val := by
    rw [Frac.val_mul, Frac.val_ofNat]
    have : (0 : ℚ) ≤ (⟨1, 9⟩ : Frac).val := by simp only [Frac.val]; norm_num
    positivity
  have hc2 : 0 ≤ (((Frac.ofNat ctx.community_members.length).mul ⟨1, 9⟩).fmin ⟨3, 9⟩).val := by
    rw [Frac.val_fmin]
    apply le_min hc1
    simp only [Frac.val]; norm_num
  have hs2 : 0 ≤ (((Frac.ofNat ctx.similar_cases.length).mul ⟨1, 19⟩).fmin ⟨1, 4⟩).val := by
    rw [Frac.val_fmin]
    refine le_min ?_ (by simp only [Frac.val]; norm_num)
    rw [Frac.val_mul, Frac.val_ofNat]
    have : (0 : ℚ) ≤ (⟨1, 19⟩ : Frac).val := by simp only [Frac.val]; norm_num
    positivity
  have htot : 0 ≤ ((s1.add (((Frac.ofNat ctx.community_members.length).mul ⟨1, 9⟩).fmin
      ⟨3, 9⟩)).add (((Frac.ofNat ctx.similar_cases.length).mul ⟨1, 19⟩).fmin ⟨1, 4⟩)).val := by
    rw [Frac.val_add, Frac.val_add]
    linarith
  constructor
  · rw [Frac.val_fmin]
    refine le_min htot ?_
    rw [Frac.val_ofNat]; norm_num
  · rw [Frac.val_fmin, Frac.val_ofNat]
    exact min_le_right _ _

/-- Range of the blended score. -/
theorem blend_bounds {cw s g : ℚ} (hcw0 : 0 ≤ cw) (hcw1 : cw ≤ 1)
    (hs0 : 0 ≤ s) (hs1 : s ≤ 1) (hg0 : 0 ≤ g) (hg1 : g ≤ 1) :
    0 ≤ (1 - cw) * s + cw * g ∧ (1 - cw) * s + cw * g ≤ 1 := by
  constructor
  · nlinarith
  · nlinarith

/-- Per-result range property asserted by the claim. -/
def ScoresIn01 (r : SearchResult) : Prop :=
  (∀ gr, r.graph_relevance = some gr → 0 ≤ gr.val ∧ gr.val ≤ 1)
  ∧ (∀ es, r.enhanced_similarity = some es → 0 ≤ es.val ∧ es.val ≤ 1)

/-- Bounded input similarity (decidable form; absent defaults to 0.5,
which is in range). -/
def simsBoundedB (l : List SearchResult) : Bool :=
  l.all (fun r => match r.similarity with
    | some s => Frac.ble (Frac.ofNat 0) s && Frac.ble s (Frac.ofNat 1)
    | none => true)

theorem enhanceLoop_bounded {kg : KGState} (hg : weightsNonnegB kg.graph = true)
    (query : String) (d : Nat) (cw : Frac)
    (hcw0 : Frac.ble (Frac.ofNat 0) cw = true) (hcw1 : Frac.ble cw (Frac.ofNat 1) = true) :
    ∀ (rs : List SearchResult) (acc : List SearchResult) (seen : List String),
    (∀ r ∈ acc, ScoresIn01 r) → simsBoundedB rs = true →
    ∀ r ∈ (enhanceLoop kg query d cw rs (acc, seen)).1, ScoresIn01 r := by
  intro rs
  induction rs with
  | nil => intro acc seen hacc _ r hr; exact hacc r (by simpa [enhanceLoop] using hr)
  | cons v rs ih =>
    intro acc seen hacc hsim
    have hsv : ∀ s, v.similarity = some s → 0 ≤ s.val ∧ s.val ≤ 1 := by
      intro s hs
      have := (List.all_eq_true.mp hsim) v (by simp)
      rw [hs] at this
      simp only [Bool.and_eq_true] at this
      constructor
      · exact Frac.val_nonneg_of_ble this.1
      · have := (Frac.ble_iff s (Frac.ofNat 1)).mp this.2
        rwa [Frac.val_ofNat] at this
    have hsim2 : simsBoundedB rs = true := by
      simp only [simsBoundedB, List.all_cons, Bool.and_eq_true] at hsim
      exact hsim.2
    simp only [enhanceLoop]
    by_cases hskip : v.decision_id = "" || seen.contains v.decision_id
    · rw [if_pos hskip]
      exact ih acc seen hacc hsim2
    · rw [if_neg hskip]
      apply ih
      · intro r hr
        rcases List.mem_append.mp hr with hr | hr
        · exact hacc r hr
        · simp only [List.mem_singleton] at hr
          subst hr
          have hctxnn := case_context_nonneg hg v.decision_id d
          have hrel := relevance_bounds query (get_case_graph_context kg v.decision_id d) hctxnn
          have horig : 0 ≤ (v.similarity.getD ⟨1, 1⟩).val
              ∧ (v.similarity.getD ⟨1, 1⟩).val ≤ 1 := by
            match hvs : v.similarity with
            | none =>
              simp only [Option.getD_none]
              constructor <;> · simp only [Frac.val]; norm_num
            | some s =>
              simp only [Option.getD_some]
              exact hsv s hvs
          have hcw0v : 0 ≤ cw.val := Frac.val_nonneg_of_ble hcw0
          have hcw1v : cw.val ≤ 1 := by
            have := (Frac.ble_iff cw (Frac.ofNat 1)).mp hcw1
            rwa [Frac.val_ofNat] at this
          have hbl := blend_bounds hcw0v hcw1v horig.1 horig.2 hrel.1 hrel.2
          constructor
          · intro gr hgr
            simp only at hgr
            exact (Option.some.inj hgr) ▸ hrel
          · intro es hes
            simp only at hes
            rw [← Option.some.inj hes]
            have hval : ((((Frac.ofNat 1).sub cw).mul (v.similarity.getD ⟨1, 1⟩)).add
                (cw.mul (calculate_graph_relevance query
                  (get_case_graph_context kg v.decision_id d)))).val
                = (1 - cw.val) * (v.similarity.getD ⟨1, 1⟩).val
                  + cw.val * (calculate_graph_relevance query
                    (get_case_graph_context kg v.decision_id d)).val := by
              rw [Frac.val_add, Frac.val_mul, Frac.val_mul, Frac.val_sub, Frac.val_ofNat]
              norm_num
            rw [hval]
            exact hbl
      · exact hsim2

theorem find_additional_source (kg : KGState) (query : String)
    (existing : List String) (m : Nat) :
    ∀ r ∈ find_additional_relevant_cases kg query existing m,
      r.source = some "graph_discovery" := by
  unfold find_additional_relevant_cases
  have hinner : ∀ (rels : List (String × String × Frac)) (acc : List SearchResult) (ent : String),
      (∀ r ∈ acc, r.source = some "graph_discovery") →
      ∀ r ∈ rels.foldl (fun acc r =>
        if r.2.1 = "case" && !(existing.contains r.1) && acc.length < m then
          acc ++ [graphDiscoveryResult ent r.1 r.2.2]
        else acc) acc, r.source = some "graph_discovery" := by
    intro rels
    induction rels with
    | nil => intro acc ent hacc r hr; exact hacc r hr
    | cons x rels ih =>
      intro acc ent hacc r hr
      simp only [List.foldl_cons] at hr
      refine ih _ ent ?_ r hr
      intro r2 hr2
      by_cases hc : (x.2.1 = "case" && !(existing.contains x.1) && acc.length < m) = true
      · rw [if_pos hc] at hr2
        rcases List.mem_append.mp hr2 with h2 | h2
        · exact hacc r2 h2
        · simp only [List.mem_singleton] at h2
          subst h2; rfl
      · rw [if_neg hc] at hr2
        exact hacc r2 hr2
  have houter : ∀ (ents : List String) (acc : List SearchResult),
      (∀ r ∈ acc, r.source = some "graph_discovery") →
      ∀ r ∈ ents.foldl (fun acc ent =>
        if kg.graph.mem ent then
          (get_related_entities kg.graph ent 2 10).foldl (fun acc r =>
            if r.2.1 = "case" && !(existing.contains r.1) && acc.length < m then
              acc ++ [graphDiscoveryResult ent r.1 r.2.2]
            else acc) acc
        else acc) acc, r.source = some "graph_discovery" := by
    intro ents
    induction ents with
    | nil => intro acc hacc r hr; exact hacc r hr
    | cons e ents ih =>
      intro acc hacc r hr
      simp only [List.foldl_cons] at hr
      refine ih _ ?_ r hr
      by_cases hc : kg.graph.mem e = true
      · rw [if_pos hc]
        exact hinner _ acc e hacc
      · rw [if_neg hc]
        exact hacc
  exact houter _ [] (by simp)

theorem merged_split (additional : List SearchResult) :
    ∀ (p : List SearchResult × List String),
    ∀ r ∈ (additional.foldl (fun (p : List SearchResult × List String) c =>
      if !(p.2.contains c.decision_id) then (p.1 ++ [c], p.2 ++ [c.decision_id]) else p) p).1,
    r ∈ p.1 ∨ r ∈ additional := by
  induction additional with
  | nil => intro p r hr; exact Or.inl (by simpa using hr)
  | cons c rest ih =>
    intro p r hr
    simp only [List.foldl_cons] at hr
    rcases ih _ r hr with h | h
    · by_cases hc : (!(p.2.contains c.decision_id)) = true
      · rw [if_pos hc] at h
        rcases List.mem_append.mp h with h2 | h2
        · exact Or.inl h2
        · simp only [List.mem_singleton] at h2
          subst h2
          exact Or.inr (by simp)
      · rw [if_neg hc] at h
        exact Or.inl h
    · exact Or.inr (List.mem_cons_of_mem _ h)

/-- CLAIM C1 (amended; confirmed part).  For a graph with nonnegative
edge weights, a context weight in the unit interval and vector
candidates whose similarities lie in the unit interval, every result
of `retrieve_with_graph_context` that is not a graph-discovered extra
has both its graph relevance and its enhanced similarity in [0, 1].
The restriction to non-discovery results is forced: graph-discovered
extras carry the raw traversal score, which can exceed 1 (see the
counterexample below). -/
theorem graphrag_scores_bounded (kg : KGState) (query : String) (vr : List SearchResult)
    (d : Nat) (cw : Frac)
    (hg : weightsNonnegB kg.graph = true)
    (hcw0 : Frac.ble (Frac.ofNat 0) cw = true) (hcw1 : Frac.ble cw (Frac.ofNat 1) = true)
    (hsim : simsBoundedB vr = true) :
    ∀ r ∈ retrieve_with_graph_context kg query vr d cw,
      r.source ≠ some "graph_discovery" → ScoresIn01 r := by
  intro r hr hsrc
  unfold retrieve_with_graph_context at hr
  by_cases hemp : vr.isEmpty
  · rw [if_pos hemp] at hr; simp at hr
  · rw [if_neg hemp] at hr
    simp only at hr
    have hr2 := (List.perm_insertionSort rankGE _).mem_iff.mp hr
    have hsplit := merged_split _ _ r hr2
    rcases hsplit with h | h
    · exact enhanceLoop_bounded hg query d cw hcw0 hcw1 vr [] [] (by simp) hsim r h
    · exact absurd (find_additional_source kg query _ 5 r h) hsrc

/-- The corpus whose built graph accumulates a deals-with weight of 3
between judge and concept, driving a discovered case above score 1. -/
def taxCorpus : List CaseData :=
  [{ decision_id := "111/2560", judges := ["สมชาย"], summary := "ภาษี" },
   { decision_id := "222/2561", judges := [], summary := "ภาษี" },
   { decision_id := "333/2562", judges := ["สมชาย"], summary := "ภาษี" },
   { decision_id := "444/2563", judges := ["สมชาย"], summary := "ภาษี" }]

/-- The knowledge-graph state built from `taxCorpus` (the similarity
collaborator reports no similar pairs). -/
def taxKG : KGState :=
  { graph := build_graph taxCorpus (fun _ _ => Frac.ofNat 0)
    case_documents := caseDocsOf taxCorpus }

/-- The single vector candidate fed to the retriever in the
counterexample. -/
def taxVec : List SearchResult := [{ decision_id := "111/2560", similarity := some ⟨9, 9⟩ }]

set_option maxRecDepth 100000 in
/-- CLAIM C1 (counterexample).  On the graph built from `taxCorpus`,
the query mentioning judge สมชาย makes the retriever emit the
graph-discovered case 222/2561 with graph relevance 3/2 and enhanced
similarity 21/20, both strictly greater than 1 — refuting the claim
that every produced result, including graph-discovered ones, has both
scores within [0, 1]. -/
theorem graphrag_discovery_score_exceeds_one :
    (∃ r ∈ retrieve_with_graph_context taxKG "ผู้พิพากษา สมชาย" taxVec 2 ⟨3, 9⟩,
      r.graph_relevance = some ⟨3, 1⟩ ∧ r.enhanced_similarity = some ⟨21, 19⟩)
    ∧ 1 < (⟨3, 1⟩ : Frac).val ∧ 1 < (⟨21, 19⟩ : Frac).val := by
  refine ⟨by decide, ?_, ?_⟩
  · show (1 : ℚ) < (3 : Int) / ((1 : Nat) + 1)
    norm_num
  · show (1 : ℚ) < (21 : Int) / ((19 : Nat) + 1)
    norm_num

set_option maxRecDepth 100000 in
/-- Witness for the amended claim C1 at the counterexample state: the
hypotheses hold there and the bounded conclusion follows for the
non-discovery results. -/
theorem graphrag_scores_bounded_witness :
    weightsNonnegB taxKG.graph = true
    ∧ simsBoundedB taxVec = true
    ∧ (∀ r ∈ retrieve_with_graph_context taxKG "ผู้พิพากษา สมชาย" taxVec 2 ⟨3, 9⟩,
        r.source ≠ some "graph_discovery" → ScoresIn01 r) :=
  ⟨by decide, by decide,
   graphrag_scores_bounded taxKG "ผู้พิพากษา สมชาย" taxVec 2 ⟨3, 9⟩
     (by decide) (by decide) (by decide) (by decide)⟩

/-!
Edge-pair uniqueness of the built graph, and the accumulation
behaviour of the deals-with weights (claim C3).
-/

theorem sameEdge_iff {u v a b : String} :
    sameEdge u v a b = true ↔ (a = u ∧ b = v) ∨ (a = v ∧ b = u) := by
  simp [sameEdge, Bool.or_eq_true, Bool.and_eq_true, decide_eq_true_eq]

theorem sameEdge_self (u v : String) : sameEdge u v u v = true := by
  exact sameEdge_iff.mpr (Or.inl ⟨rfl, rfl⟩)

theorem sameEdge_symm {u v a b : String} (h : sameEdge u v a b = true) :
    sameEdge a b u v = true := by
  rcases sameEdge_iff.mp h with ⟨h1, h2⟩ | ⟨h1, h2⟩
  · exact sameEdge_iff.mpr (Or.inl ⟨h1.symm, h2.symm⟩)
  · exact sameEdge_iff.mpr (Or.inr ⟨h2.symm, h1.symm⟩)

theorem sameEdge_trans {a b u v x y : String} (h1 : sameEdge a b x y = true)
    (h2 : sameEdge u v x y = true) : sameEdge a b u v = true := by
  rcases sameEdge_iff.mp h1 with ⟨p1, p2⟩ | ⟨p1, p2⟩ <;>
    rcases sameEdge_iff.mp h2 with ⟨q1, q2⟩ | ⟨q1, q2⟩ <;>
      apply sameEdge_iff.mpr <;> subst_vars <;> simp

/-- No two stored edge entries name the same unordered pair. -/
def edgeKeysUnique (g : PyGraph) : Prop :=
  g.edges.Pairwise (fun e1 e2 => ¬ (sameEdge e1.1 e1.2.1 e2.1 e2.2.1 = true))

theorem pairwise_keys_map {l : List (String × String × EdgeData)}
    (h : l.Pairwise (fun e1 e2 => ¬ (sameEdge e1.1 e1.2.1 e2.1 e2.2.1 = true)))
    (f : (String × String × EdgeData) → (String × String × EdgeData))
    (hf : ∀ e, (f e).1 = e.1 ∧ (f e).2.1 = e.2.1) :
    (l.map f).Pairwise (fun e1 e2 => ¬ (sameEdge e1.1 e1.2.1 e2.1 e2.2.1 = true)) := by
  rw [List.pairwise_map]
  refine h.imp ?_
  intro e1 e2 h12 hc
  rw [(hf e1).1, (hf e1).2, (hf e2).1, (hf e2).2] at hc
  exact h12 hc

theorem edgeKeysUnique_ensureNode (g : PyGraph) (x : String) :
    edgeKeysUnique g → edgeKeysUnique (g.ensureNode x) := by
  intro h
  unfold PyGraph.ensureNode edgeKeysUnique
  by_cases hc : g.nodes.any (fun p => p.1 = x) = true
  · rw [if_pos hc]; exact h
  · rw [if_neg hc]; exact h

theorem edgeKeysUnique_add_edge_rel (g : PyGraph) (u v rel : String)
    (h : edgeKeysUnique g) : edgeKeysUnique (g.add_edge_rel u v rel) := by
  unfold PyGraph.add_edge_rel
  have h2 : edgeKeysUnique ((g.ensureNode u).ensureNode v) :=
    edgeKeysUnique_ensureNode _ v (edgeKeysUnique_ensureNode g u h)
  set g2 := (g.ensureNode u).ensureNode v
  by_cases hc : g2.edges.any (fun e => sameEdge u v e.1 e.2.1) = true
  · rw [if_pos hc]
    exact pairwise_keys_map h2 _ (fun e => by
      by_cases he : sameEdge u v e.1 e.2.1 = true
      · rw [if_pos he]; exact ⟨rfl, rfl⟩
      · rw [if_neg he]; exact ⟨rfl, rfl⟩)
  · rw [if_neg hc]
    unfold edgeKeysUnique
    rw [List.pairwise_append]
    refine ⟨h2, by simp, ?_⟩
    intro e1 he1 e2 he2
    simp only [List.mem_singleton] at he2
    subst he2
    intro hck
    have : sameEdge u v e1.1 e1.2.1 = true := sameEdge_symm hck
    exact hc (List.any_eq_true.mpr ⟨e1, he1, this⟩)

theorem edgeKeysUnique_add_edge_w (g : PyGraph) (u v rel : String) (w : Frac)
    (h : edgeKeysUnique g) : edgeKeysUnique (g.add_edge_w u v rel w) := by
  unfold PyGraph.add_edge_w
  have h2 : edgeKeysUnique ((g.ensureNode u).ensureNode v) :=
    edgeKeysUnique_ensureNode _ v (edgeKeysUnique_ensureNode g u h)
  set g2 := (g.ensureNode u).ensureNode v
  by_cases hc : g2.edges.any (fun e => sameEdge u v e.1 e.2.1) = true
  · rw [if_pos hc]
    exact pairwise_keys_map h2 _ (fun e => by
      by_cases he : sameEdge u v e.1 e.2.1 = true
      · rw [if_pos he]; exact ⟨rfl, rfl⟩
      · rw [if_neg he]; exact ⟨rfl, rfl⟩)
  · rw [if_neg hc]
    unfold edgeKeysUnique
    rw [List.pairwise_append]
    refine ⟨h2, by simp, ?_⟩
    intro e1 he1 e2 he2
    simp only [List.mem_singleton] at he2
    subst he2
    intro hck
    have : sameEdge u v e1.1 e1.2.1 = true := sameEdge_symm hck
    exact hc (List.any_eq_true.mpr ⟨e1, he1, this⟩)

theorem foldl_preserve {α β : Type} (P : α → Prop) (step : α → β → α)
    (h : ∀ a b, P a → P (step a b)) : ∀ (l : List β) (a : α), P a → P (l.foldl step a) := by
  intro l
  induction l with
  | nil => intro a ha; simpa using ha
  | cons b l ih => intro a ha; exact ih _ (h a b ha)

theorem edgeKeysUnique_add_node (g : PyGraph) (x ty : String)
    (h : edgeKeysUnique g) : edgeKeysUnique (g.add_node x ty) := by
  unfold PyGraph.add_node
  by_cases hc : g.nodes.any (fun p => p.1 = x) = true
  · rw [if_pos hc]; exact h
  · rw [if_neg hc]; exact h

theorem edgeKeysUnique_addCaseRelsOne (g : PyGraph) (case_id : String)
    (entities : List (String × List String)) (h : edgeKeysUnique g) :
    edgeKeysUnique (addCaseRelsOne g case_id entities) := by
  unfold addCaseRelsOne
  have step1 : ∀ (g : PyGraph), edgeKeysUnique g → edgeKeysUnique
      (entities.foldl (fun g te => te.2.foldl (fun g e =>
        if e ≠ case_id then g.add_edge_rel case_id e "contains" else g) g) g) := by
    intro g hg
    refine foldl_preserve _ _ ?_ entities g hg
    intro a te ha
    refine foldl_preserve _ _ ?_ te.2 a ha
    intro a2 e ha2
    by_cases hc : e ≠ case_id
    · rw [if_pos hc]; exact edgeKeysUnique_add_edge_rel _ _ _ _ ha2
    · rw [if_neg hc]; exact ha2
  have step2 : ∀ (g : PyGraph), edgeKeysUnique g → edgeKeysUnique
      (if assocHasKey entities "judge" && assocHasKey entities "case_type" then
        (assocGet entities "judge").foldl (fun g j =>
          (assocGet entities "case_type").foldl (fun g ct => g.add_edge_rel j ct "handles") g) g
      else g) := by
    intro g hg
    by_cases hc : (assocHasKey entities "judge" && assocHasKey entities "case_type") = true
    · rw [if_pos hc]
      refine foldl_preserve _ _ ?_ _ g hg
      intro a j ha
      refine foldl_preserve _ _ ?_ _ a ha
      intro a2 ct ha2
      exact edgeKeysUnique_add_edge_rel _ _ _ _ ha2
    · rw [if_neg hc]; exact hg
  have step3 : ∀ (g : PyGraph), edgeKeysUnique g → edgeKeysUnique
      (if assocHasKey entities "judge" && assocHasKey entities "legal_concept" then
        (assocGet entities "judge").foldl (fun g j =>
          (assocGet entities "legal_concept").foldl (fun g concept =>
            let w := (((g.findEdge j concept).bind (fun d => d.weight)).getD (Frac.ofNat 0)).add
              (Frac.ofNat 1)
            g.add_edge_w j concept "deals_with" w) g) g
      else g) := by
    intro g hg
    by_cases hc : (assocHasKey entities "judge" && assocHasKey entities "legal_concept") = true
    · rw [if_pos hc]
      refine foldl_preserve _ _ ?_ _ g hg
      intro a j ha
      refine foldl_preserve _ _ ?_ _ a ha
      intro a2 concept ha2
      exact edgeKeysUnique_add_edge_w _ _ _ _ _ ha2
    · rw [if_neg hc]; exact hg
  exact step3 _ (step2 _ (step1 g h))

theorem edgeKeysUnique_build (cases : List CaseData) (sim : String → String → Frac) :
    edgeKeysUnique (build_graph cases sim) := by
  unfold build_graph
  have h0 : edgeKeysUnique PyGraph.empty := by
    unfold edgeKeysUnique PyGraph.empty
    simp
  have h1 : edgeKeysUnique (addNodesPhase PyGraph.empty (allEntitiesOf cases)) := by
    unfold addNodesPhase
    refine foldl_preserve _ _ ?_ _ _ h0
    intro a p ha
    refine foldl_preserve _ _ ?_ _ a ha
    intro a2 e ha2
    exact edgeKeysUnique_add_node _ _ _ ha2
  have h2 : edgeKeysUnique (add_case_relationships
      (addNodesPhase PyGraph.empty (allEntitiesOf cases)) (caseEntitiesOf cases)) := by
    unfold add_case_relationships
    refine foldl_preserve _ _ ?_ _ _ h1
    intro a ce ha
    exact edgeKeysUnique_addCaseRelsOne _ _ _ ha
  unfold add_similarity_relationships
  set g2 := add_case_relationships (addNodesPhase PyGraph.empty (allEntitiesOf cases))
    (caseEntitiesOf cases)
  set cids := cases.foldl (fun acc c =>
    if c.decision_id ≠ "" && (caseDocsOf cases).any (fun p => p.1 = c.decision_id) then
      acc ++ [c.decision_id]
    else acc) []
  by_cases hlen : cids.length < 2
  · rw [if_pos hlen]; exact h2
  · rw [if_neg hlen]
    refine foldl_preserve _ _ ?_ _ _ h2
    intro a i ha
    refine foldl_preserve _ _ ?_ _ a ha
    intro a2 j ha2
    by_cases hc : (i < j && Frac.blt ((Frac.ofNat 3).divNat 10)
        (sim (cids.getD i "") (cids.getD j ""))) = true
    · rw [if_pos hc]; exact edgeKeysUnique_add_edge_w _ _ _ _ _ ha2
    · rw [if_neg hc]; exact ha2

theorem ensureNode_edges (g : PyGraph) (x : String) : (g.ensureNode x).edges = g.edges := by
  unfold PyGraph.ensureNode
  by_cases hc : g.nodes.any (fun p => p.1 = x) = true
  · rw [if_pos hc]
  · rw [if_neg hc]

theorem findEdge_ensureNode (g : PyGraph) (x a b : String) :
    (g.ensureNode x).findEdge a b = g.findEdge a b := by
  unfold PyGraph.findEdge
  rw [ensureNode_edges]

theorem find?_map_update_ne {u v a b : String} (hne : sameEdge a b u v = false)
    (f : (String × String × EdgeData) → EdgeData) :
    ∀ l : List (String × String × EdgeData),
    (l.map (fun e => if sameEdge u v e.1 e.2.1 then (e.1, e.2.1, f e) else e)).find?
      (fun e => sameEdge a b e.1 e.2.1)
    = l.find? (fun e => sameEdge a b e.1 e.2.1) := by
  intro l
  induction l with
  | nil => rfl
  | cons e l ih =>
    by_cases hp : sameEdge a b e.1 e.2.1 = true
    · have hnu : sameEdge u v e.1 e.2.1 = false := by
        by_contra hcon
        have htu : sameEdge u v e.1 e.2.1 = true := by
          cases hval : sameEdge u v e.1 e.2.1
          · exact absurd hval hcon
          · rfl
        have := sameEdge_trans hp htu
        rw [this] at hne
        exact Bool.noConfusion hne
      simp only [List.map_cons, hnu, Bool.false_eq_true, if_false, List.find?_cons, hp]
    · have hpf : sameEdge a b e.1 e.2.1 = false := by
        cases hval : sameEdge a b e.1 e.2.1
        · rfl
        · exact absurd hval hp
      by_cases hm : sameEdge u v e.1 e.2.1 = true
      · simp only [List.map_cons, hm, if_true, List.find?_cons, hpf]
        exact ih
      · have hmf : sameEdge u v e.1 e.2.1 = false := by
          cases hval : sameEdge u v e.1 e.2.1
          · rfl
          · exact absurd hval hm
        simp only [List.map_cons, hmf, Bool.false_eq_true, if_false, List.find?_cons, hpf]
        exact ih

theorem findEdge_add_edge_rel_ne {a b u v : String} (hne : sameEdge a b u v = false)
    (g : PyGraph) (rel : String) :
    (g.add_edge_rel u v rel).findEdge a b = g.findEdge a b := by
  unfold PyGraph.add_edge_rel
  set g2 := (g.ensureNode u).ensureNode v with hg2
  have hedges : g2.edges = g.edges := by
    rw [hg2, ensureNode_edges, ensureNode_edges]
  by_cases hc : g2.edges.any (fun e => sameEdge u v e.1 e.2.1) = true
  · rw [if_pos hc]
    show ((g2.edges.map _).find? _).map _ = _
    rw [find?_map_update_ne hne (fun e => { e.2.2 with relation := rel })]
    unfold PyGraph.findEdge
    rw [hedges]
  · rw [if_neg hc]
    show ((g2.edges ++ [(u, v, (⟨rel, none⟩ : EdgeData))]).find? _).map _ = _
    rw [List.find?_append]
    have hsingle : ([(u, v, (⟨rel, none⟩ : EdgeData))].find?
        (fun e => sameEdge a b e.1 e.2.1)) = none := by
      simp only [List.find?_cons, hne]
      rfl
    rw [hsingle, Option.or_none]
    unfold PyGraph.findEdge
    rw [hedges]

theorem findEdge_add_edge_w_ne {a b u v : String} (hne : sameEdge a b u v = false)
    (g : PyGraph) (rel : String) (w : Frac) :
    (g.add_edge_w u v rel w).findEdge a b = g.findEdge a b := by
  unfold PyGraph.add_edge_w
  set g2 := (g.ensureNode u).ensureNode v with hg2
  have hedges : g2.edges = g.edges := by
    rw [hg2, ensureNode_edges, ensureNode_edges]
  by_cases hc : g2.edges.any (fun e => sameEdge u v e.1 e.2.1) = true
  · rw [if_pos hc]
    show ((g2.edges.map _).find? _).map _ = _
    rw [find?_map_update_ne hne (fun _ => ⟨rel, some w⟩)]
    unfold PyGraph.findEdge
    rw [hedges]
  · rw [if_neg hc]
    show ((g2.edges ++ [(u, v, (⟨rel, some w⟩ : EdgeData))]).find? _).map _ = _
    rw [List.find?_append]
    have hsingle : ([(u, v, (⟨rel, some w⟩ : EdgeData))].find?
        (fun e => sameEdge a b e.1 e.2.1)) = none := by
      simp only [List.find?_cons, hne]
      rfl
    rw [hsingle, Option.or_none]
    unfold PyGraph.findEdge
    rw [hedges]

theorem find?_map_update_const {u v : String} (d : EdgeData) :
    ∀ l : List (String × String × EdgeData),
    l.any (fun e => sameEdge u v e.1 e.2.1) = true →
    ∃ x y, (l.map (fun e => if sameEdge u v e.1 e.2.1 then (e.1, e.2.1, d) else e)).find?
      (fun e => sameEdge u v e.1 e.2.1) = some (x, y, d) := by
  intro l
  induction l with
  | nil => intro h; simp at h
  | cons e l ih =>
    intro h
    by_cases hp : sameEdge u v e.1 e.2.1 = true
    · refine ⟨e.1, e.2.1, ?_⟩
      simp only [List.map_cons, hp, if_true, List.find?_cons]
    · have hpf : sameEdge u v e.1 e.2.1 = false := by
        cases hval : sameEdge u v e.1 e.2.1
        · rfl
        · exact absurd hval hp
      have h2 : l.any (fun e => sameEdge u v e.1 e.2.1) = true := by
        simp only [List.any_cons, hpf, Bool.false_or] at h
        exact h
      rcases ih h2 with ⟨x, y, hxy⟩
      refine ⟨x, y, ?_⟩
      simp only [List.map_cons, hpf, Bool.false_eq_true, if_false, List.find?_cons, hpf]
      exact hxy

theorem findEdge_add_edge_w_same (g : PyGraph) (u v rel : String) (w : Frac) :
    (g.add_edge_w u v rel w).findEdge u v = some ⟨rel, some w⟩ := by
  unfold PyGraph.add_edge_w
  set g2 := (g.ensureNode u).ensureNode v with hg2
  by_cases hc : g2.edges.any (fun e => sameEdge u v e.1 e.2.1) = true
  · rw [if_pos hc]
    show ((g2.edges.map _).find? _).map _ = _
    rcases find?_map_update_const (⟨rel, some w⟩ : EdgeData) g2.edges hc with ⟨x, y, hxy⟩
    rw [hxy]
    rfl
  · rw [if_neg hc]
    show ((g2.edges ++ [(u, v, (⟨rel, some w⟩ : EdgeData))]).find? _).map _ = _
    rw [List.find?_append]
    have hnone : g2.edges.find? (fun e => sameEdge u v e.1 e.2.1) = none := by
      rcases hfind : g2.edges.find? (fun e => sameEdge u v e.1 e.2.1) with _ | e
      · exact hfind
      · exact absurd (List.any_eq_true.mpr
          ⟨e, List.mem_of_find?_eq_some hfind, List.find?_some hfind⟩) hc
    rw [hnone, Option.none_or]
    simp only [List.find?_cons, sameEdge_self]
    rfl

theorem Frac.ofNat_add_one (n : Nat) : (Frac.ofNat n).add (Frac.ofNat 1) = Frac.ofNat (n + 1) := by
  unfold Frac.ofNat Frac.add
  congr 1
  · push_cast; ring

theorem sameEdge_false_of {u v a b : String} (h : ¬((a = u ∧ b = v) ∨ (a = v ∧ b = u))) :
    sameEdge u v a b = false := by
  cases hval : sameEdge u v a b
  · rfl
  · exact absurd (sameEdge_iff.mp hval) h

theorem foldl_preserve_mem {α β : Type} (P : α → Prop) (step : α → β → α) :
    ∀ (l : List β), (∀ a b, b ∈ l → P a → P (step a b)) →
    ∀ a, P a → P (l.foldl step a) := by
  intro l
  induction l with
  | nil => intro _ a ha; simpa using ha
  | cons b l ih =>
    intro h a ha
    exact ih (fun a2 b2 hb2 ha2 => h a2 b2 (List.mem_cons_of_mem _ hb2) ha2) _
      (h a b (by simp) ha)

/-- The judge entities extracted from one case. -/
def judgesOf (cs : CaseData) : List String := assocGet (extract_entities cs) "judge"

/-- The legal-concept entities extracted from one case. -/
def conceptsOf (cs : CaseData) : List String := assocGet (extract_entities cs) "legal_concept"

/-- The case-type entities extracted from one case. -/
def caseTypesOf (cs : CaseData) : List String := assocGet (extract_entities cs) "case_type"

/-- Number of cases of the corpus in which judge `j` and concept `c`
logically co-occur (the co-occurrences accumulated by the deals-with
weight). -/
def dealsCount (j c : String) (cases : List CaseData) : Nat :=
  (cases.filter (fun cs =>
    decide (cs.decision_id ≠ "" ∧ j ∈ judgesOf cs ∧ c ∈ conceptsOf cs))).length

/-- The deals-with edge of the pair carries exactly the accumulated
count (no edge while the count is zero). -/
def PairInv (j c : String) (n : Nat) (g : PyGraph) : Prop :=
  g.findEdge j c = if n = 0 then none else some ⟨"deals_with", some (Frac.ofNat n)⟩

/-- Namespace disjointness of the tracked pair from the other entity
roles of one case: the pair strings are not the case id, the concept is
not also a judge, the judge not also a concept, and neither is a case
type.  (Identifiers of different entity types are namespaced in the
data; the hypotheses record that.) -/
def PairDisjoint (j c : String) (cs : CaseData) : Prop :=
  cs.decision_id ≠ j ∧ cs.decision_id ≠ c
  ∧ c ∉ judgesOf cs ∧ j ∉ conceptsOf cs
  ∧ j ∉ caseTypesOf cs ∧ c ∉ caseTypesOf cs

theorem listInsert_nodup {l : List String} (h : l.Nodup) (x : String) :
    (listInsert l x).Nodup := by
  unfold listInsert
  by_cases hc : x ∈ l
  · rw [if_pos hc]; exact h
  · rw [if_neg hc]
    rw [List.nodup_append]
    exact ⟨h, by simp, by simpa [List.disjoint_singleton] using hc⟩

theorem extract_values_nodup (cs : CaseData) : ∀ kv ∈ extract_entities cs, kv.2.Nodup := by
  intro kv hkv
  unfold extract_entities at hkv
  simp only [List.mem_append] at hkv
  have hfold : ∀ (l : List String) (f : List String → String → List String),
      (∀ acc x, acc.Nodup → (f acc x).Nodup) → ∀ acc : List String, acc.Nodup →
      (l.foldl f acc).Nodup := fun l f hf => foldl_preserve _ f hf l
  rcases hkv with (((h | h) | h) | h) | h
  · by_cases hc : cs.decision_id ≠ ""
    · rw [if_pos hc] at h
      simp only [List.mem_singleton] at h
      subst h; simp
    · rw [if_neg hc] at h
      simp at h
  · by_cases hc : (cs.judges.foldl (fun acc j =>
        let t := trimChars j.toList
        if j ≠ "" && !t.isEmpty then listInsert acc (String.mk t) else acc) []).isEmpty
    · rw [if_pos hc] at h; simp at h
    · rw [if_neg hc] at h
      simp only [List.mem_singleton] at h
      subst h
      refine hfold _ _ ?_ [] (by simp)
      intro acc x hacc
      by_cases hb : (x ≠ "" && !(trimChars x.toList).isEmpty) = true
      · rw [if_pos hb]; exact listInsert_nodup hacc _
      · rw [if_neg hb]; exact hacc
  · by_cases hc : (cs.case_type ≠ "" && cs.case_type ≠ "ไม่ระบุ") = true
    · rw [if_pos hc] at h
      simp only [List.mem_singleton] at h
      subst h; simp
    · rw [if_neg hc] at h; simp at h
  · by_cases hc : (cs.related_sections.foldl (fun acc p =>
        p.2.foldl (fun acc s => if s ≠ "" then listInsert acc (p.1 ++ " " ++ s) else acc) acc)
        []).isEmpty
    · rw [if_pos hc] at h; simp at h
    · rw [if_neg hc] at h
      simp only [List.mem_singleton] at h
      subst h
      show (cs.related_sections.foldl (fun acc p =>
        p.2.foldl (fun acc s => if s ≠ "" then listInsert acc (p.1 ++ " " ++ s) else acc) acc)
        []).Nodup
      refine foldl_preserve List.Nodup _ ?_ _ [] (by simp)
      intro acc p hacc
      refine hfold _ _ ?_ acc hacc
      intro acc2 s hacc2
      by_cases hb : s ≠ ""
      · rw [if_pos hb]; exact listInsert_nodup hacc2 _
      · rw [if_neg hb]; exact hacc2
  · by_cases hc : cs.text ≠ ""
    · rw [if_pos hc] at h
      simp only [List.mem_singleton] at h
      subst h
      exact List.Nodup.filter _ (by decide)
    · rw [if_neg hc] at h; simp at h

theorem assocGet_nodup {l : List (String × List String)} (h : ∀ kv ∈ l, kv.2.Nodup)
    (k : String) : (assocGet l k).Nodup := by
  unfold assocGet
  rcases hf : l.find? (fun p => p.1 = k) with _ | p
  · rw [hf]; simp
  · rw [hf]; simpa using h p (List.mem_of_find?_eq_some hf)

theorem assocGet_nil_of_no_key {l : List (String × List String)} {k : String}
    (h : assocHasKey l k = false) : assocGet l k = [] := by
  unfold assocGet
  have : l.find? (fun p => p.1 = k) = none := by
    rw [List.find?_eq_none]
    intro x hx hpx
    have : assocHasKey l k = true := List.any_eq_true.mpr ⟨x, hx, hpx⟩
    rw [this] at h
    exact Bool.noConfusion h
  rw [this]
  rfl

theorem sameEdge_false_fst {j c x y : String} (h1 : x ≠ j) (h2 : x ≠ c) :
    sameEdge j c x y = false := by
  apply sameEdge_false_of
  rintro (⟨h, _⟩ | ⟨h, _⟩)
  · exact h1 h
  · exact h2 h

theorem sameEdge_false_inner_j {j c y : String} (hyc : y ≠ c) (hjc : j ≠ c) :
    sameEdge j c j y = false := by
  apply sameEdge_false_of
  rintro (⟨_, h⟩ | ⟨h, _⟩)
  · exact hyc h
  · exact hjc h

/-- The inner deals-with fold of one judge entity. -/
def dealsStep (j' : String) (g : PyGraph) (concept : String) : PyGraph :=
  g.add_edge_w j' concept "deals_with"
    ((((g.findEdge j' concept).bind (fun d => d.weight)).getD (Frac.ofNat 0)).add
      (Frac.ofNat 1))

theorem dealsInner_ne {j c : String} (j' : String) (hj1 : j' ≠ j) (hj2 : j' ≠ c)
    (cl : List String) (g : PyGraph) :
    (cl.foldl (dealsStep j') g).findEdge j c = g.findEdge j c :=
  foldl_preserve (fun g2 : PyGraph => g2.findEdge j c = g.findEdge j c) (dealsStep j')
    (fun g2 concept h2 => by
      show (dealsStep j' g2 concept).findEdge j c = g.findEdge j c
      unfold dealsStep
      rw [findEdge_add_edge_w_ne (sameEdge_false_fst hj1 hj2) g2 "deals_with" _]
      exact h2)
    cl g rfl

theorem dealsInner_j {j c : String} (hjc : j ≠ c) :
    ∀ (cl : List String), cl.Nodup → ∀ (n : Nat) (g : PyGraph), PairInv j c n g →
    PairInv j c (if c ∈ cl then n + 1 else n) (cl.foldl (dealsStep j) g) := by
  intro cl
  induction cl with
  | nil =>
    intro _ n g h
    simpa using h
  | cons c' cl ih =>
    intro hnd n g h
    simp only [List.foldl_cons]
    by_cases hcc : c' = c
    · have hw : (((g.findEdge j c').bind (fun d => d.weight)).getD (Frac.ofNat 0)).add
          (Frac.ofNat 1) = Frac.ofNat (n + 1) := by
        unfold PairInv at h
        by_cases hn : n = 0
        · rw [hcc, h, if_pos hn]
          simp only [Option.none_bind, Option.getD_none]
          rw [Frac.ofNat_add_one, hn]
        · rw [hcc, h, if_neg hn]
          simp only [Option.some_bind, Option.getD_some]
          rw [Frac.ofNat_add_one]
      have hstep : PairInv j c (n + 1) (dealsStep j g c') := by
        unfold PairInv dealsStep
        rw [if_neg (Nat.succ_ne_zero n), hw, hcc]
        exact findEdge_add_edge_w_same g j c "deals_with" (Frac.ofNat (n + 1))
      have hnotin : c ∉ cl := by
        rw [← hcc]
        exact (List.nodup_cons.mp hnd).1
      have hrest := foldl_preserve_mem (PairInv j c (n + 1)) (dealsStep j) cl
        (fun g2 c2 hc2 h2 => by
          show PairInv j c (n + 1) (dealsStep j g2 c2)
          unfold PairInv at h2 ⊢
          unfold dealsStep
          rw [findEdge_add_edge_w_ne
            (sameEdge_false_inner_j (fun hq => hnotin (by rw [← hq]; exact hc2)) hjc)
            g2 "deals_with" _]
          exact h2)
        _ hstep
      rw [if_pos (by rw [← hcc]; simp)]
      exact hrest
    · have hstep : PairInv j c n (dealsStep j g c') := by
        unfold PairInv at h ⊢
        unfold dealsStep
        rw [findEdge_add_edge_w_ne (sameEdge_false_inner_j hcc hjc) g "deals_with" _]
        exact h
      have hres := ih (List.nodup_cons.mp hnd).2 n _ hstep
      by_cases hmem : c ∈ cl
      · rw [if_pos hmem] at hres
        rw [if_pos (List.mem_cons_of_mem _ hmem)]
        exact hres
      · rw [if_neg hmem] at hres
        rw [if_neg (by
          intro hcm
          rcases List.mem_cons.mp hcm with hcm | hcm
          · exact hcc hcm.symm
          · exact hmem hcm)]
        exact hres

theorem dealsOuter {j c : String} (hjc : j ≠ c) (concepts : List String)
    (hcn : concepts.Nodup) :
    ∀ (js : List String), js.Nodup → c ∉ js → ∀ (n : Nat) (g : PyGraph), PairInv j c n g →
    PairInv j c (if j ∈ js ∧ c ∈ concepts then n + 1 else n)
      (js.foldl (fun g j' => concepts.foldl (dealsStep j') g) g) := by
  intro js
  induction js with
  | nil =>
    intro _ _ n g h
    simpa using h
  | cons j' js ih =>
    intro hnd hcnot n g h
    simp only [List.foldl_cons]
    have hj'c : j' ≠ c := by
      intro hq
      exact hcnot (by rw [← hq]; simp)
    by_cases hjj : j' = j
    · have hinner : PairInv j c (if c ∈ concepts then n + 1 else n)
          (concepts.foldl (dealsStep j') g) := by
        rw [hjj]
        exact dealsInner_j hjc concepts hcn n g h
      have hnotin : j' ∉ js := (List.nodup_cons.mp hnd).1
      have hrest := foldl_preserve_mem (PairInv j c (if c ∈ concepts then n + 1 else n))
        (fun g2 j2 => concepts.foldl (dealsStep j2) g2) js
        (fun g2 j2 hj2 h2 => by
          show PairInv j c (if c ∈ concepts then n + 1 else n)
            (concepts.foldl (dealsStep j2) g2)
          unfold PairInv at h2 ⊢
          rw [dealsInner_ne j2 (fun hq => hnotin (by rw [hjj, ← hq]; exact hj2))
            (fun hq => hcnot (List.mem_cons_of_mem _ (by rw [← hq]; exact hj2))) concepts g2]
          exact h2)
        _ hinner
      by_cases hcm : c ∈ concepts
      · rw [if_pos ⟨by rw [← hjj]; simp, hcm⟩]
        rw [if_pos hcm] at hrest
        exact hrest
      · rw [if_neg (by intro hand; exact hcm hand.2)]
        rw [if_neg hcm] at hrest
        exact hrest
    · have hstep : PairInv j c n (concepts.foldl (dealsStep j') g) := by
        unfold PairInv at h ⊢
        rw [dealsInner_ne j' hjj hj'c concepts g]
        exact h
      have hres := ih (List.nodup_cons.mp hnd).2
        (fun hq => hcnot (List.mem_cons_of_mem _ hq)) n _ hstep
      have hiff : (j ∈ j' :: js ∧ c ∈ concepts) ↔ (j ∈ js ∧ c ∈ concepts) := by
        constructor
        · rintro ⟨hjm, hcm⟩
          rcases List.mem_cons.mp hjm with hq | hq
          · exact absurd hq.symm hjj
          · exact ⟨hq, hcm⟩
        · rintro ⟨hjm, hcm⟩
          exact ⟨List.mem_cons_of_mem _ hjm, hcm⟩
      by_cases hand : j ∈ js ∧ c ∈ concepts
      · rw [if_pos (hiff.mpr hand)]
        rw [if_pos hand] at hres
        exact hres
      · rw [if_neg (fun hq => hand (hiff.mp hq))]
        rw [if_neg hand] at hres
        exact hres

theorem mem_assocGet_hasKey {l : List (String × List String)} {k x : String}
    (h : x ∈ assocGet l k) : assocHasKey l k = true := by
  cases hval : assocHasKey l k
  · rw [assocGet_nil_of_no_key hval] at h
    simp at h
  · rfl

theorem addCaseRelsOne_pair {j c : String} (hjc : j ≠ c) (cs : CaseData)
    (hdis : PairDisjoint j c cs) (n : Nat) (g : PyGraph) (hInv : PairInv j c n g) :
    PairInv j c (n + (if j ∈ judgesOf cs ∧ c ∈ conceptsOf cs then 1 else 0))
      (addCaseRelsOne g cs.decision_id (extract_entities cs)) := by
  obtain ⟨hid1, hid2, hcj, hjcc, hjct, hcct⟩ := hdis
  unfold addCaseRelsOne
  set ents := extract_entities cs with hents
  set case_id := cs.decision_id with hcid
  have h1 : PairInv j c n (ents.foldl (fun g te =>
      te.2.foldl (fun g e =>
        if e ≠ case_id then g.add_edge_rel case_id e "contains" else g) g) g) := by
    refine foldl_preserve (PairInv j c n) _ ?_ ents g hInv
    intro g2 te h2
    refine foldl_preserve (PairInv j c n) _ ?_ te.2 g2 h2
    intro g3 e h3
    by_cases hc : e ≠ case_id
    · rw [if_pos hc]
      unfold PairInv at h3 ⊢
      rw [findEdge_add_edge_rel_ne (sameEdge_false_fst hid1 hid2) g3 "contains"]
      exact h3
    · rw [if_neg hc]
      exact h3
  set g1 := ents.foldl (fun g te =>
    te.2.foldl (fun g e =>
      if e ≠ case_id then g.add_edge_rel case_id e "contains" else g) g) g
  have h2 : PairInv j c n (if assocHasKey ents "judge" && assocHasKey ents "case_type" then
      (assocGet ents "judge").foldl (fun g j =>
        (assocGet ents "case_type").foldl (fun g ct => g.add_edge_rel j ct "handles") g) g1
    else g1) := by
    by_cases hck : (assocHasKey ents "judge" && assocHasKey ents "case_type") = true
    · rw [if_pos hck]
      refine foldl_preserve_mem (PairInv j c n) _ _ ?_ g1 h1
      intro g2 j2 hj2 h2
      show PairInv j c n ((assocGet ents "case_type").foldl
        (fun g ct => g.add_edge_rel j2 ct "handles") g2)
      refine foldl_preserve_mem (PairInv j c n) _ _ ?_ g2 h2
      intro g3 ct2 hct2 h3
      show PairInv j c n (g3.add_edge_rel j2 ct2 "handles")
      unfold PairInv at h3 ⊢
      rw [findEdge_add_edge_rel_ne (sameEdge_false_of (by
        rintro (⟨_, hq⟩ | ⟨hq, _⟩)
        · exact hcct (by rw [← hq]; exact hct2)
        · exact hcj (by rw [← hq]; exact hj2))) g3 "handles"]
      exact h3
    · rw [if_neg hck]
      exact h1
  set g2 := if assocHasKey ents "judge" && assocHasKey ents "case_type" then
    (assocGet ents "judge").foldl (fun g j =>
      (assocGet ents "case_type").foldl (fun g ct => g.add_edge_rel j ct "handles") g) g1
  else g1
  have hjn : (judgesOf cs).Nodup := assocGet_nodup (extract_values_nodup cs) "judge"
  have hcn : (conceptsOf cs).Nodup := assocGet_nodup (extract_values_nodup cs) "legal_concept"
  by_cases hck : (assocHasKey ents "judge" && assocHasKey ents "legal_concept") = true
  · rw [if_pos hck]
    have h3 := dealsOuter hjc (conceptsOf cs) hcn (judgesOf cs) hjn hcj n g2 h2
    have hconv : (if j ∈ judgesOf cs ∧ c ∈ conceptsOf cs then n + 1 else n)
        = n + (if j ∈ judgesOf cs ∧ c ∈ conceptsOf cs then 1 else 0) := by
      by_cases hand : j ∈ judgesOf cs ∧ c ∈ conceptsOf cs
      · rw [if_pos hand, if_pos hand]
      · rw [if_neg hand, if_neg hand]
        omega
    rw [hconv] at h3
    exact h3
  · rw [if_neg hck]
    have hzero : (if j ∈ judgesOf cs ∧ c ∈ conceptsOf cs then 1 else 0) = 0 := by
      rw [if_neg]
      rintro ⟨hjm, hcm⟩
      exact hck (by
        rw [Bool.and_eq_true]
        exact ⟨mem_assocGet_hasKey hjm, mem_assocGet_hasKey hcm⟩)
    rw [hzero]
    exact h2

theorem foldl_filter_append {β γ : Type} (P : β → Prop) [DecidablePred P] (f : β → γ) :
    ∀ (l : List β) (acc : List γ),
    l.foldl (fun acc c => if P c then acc ++ [f c] else acc) acc
    = acc ++ l.foldl (fun acc c => if P c then acc ++ [f c] else acc) [] := by
  intro l
  induction l with
  | nil => intro acc; simp
  | cons c l ih =>
    intro acc
    simp only [List.foldl_cons]
    by_cases hc : P c
    · rw [if_pos hc, if_pos hc, ih (acc ++ [f c]), ih ([] ++ [f c])]
      simp
    · rw [if_neg hc, if_neg hc, ih acc]

theorem caseEntitiesOf_cons (cs : CaseData) (cases : List CaseData) :
    caseEntitiesOf (cs :: cases)
    = (if cs.decision_id ≠ "" then [(cs.decision_id, extract_entities cs)] else [])
      ++ caseEntitiesOf cases := by
  unfold caseEntitiesOf
  simp only [List.foldl_cons]
  by_cases hc : cs.decision_id ≠ ""
  · rw [if_pos hc, if_pos hc]
    exact foldl_filter_append (fun c : CaseData => c.decision_id ≠ "")
      (fun c => (c.decision_id, extract_entities c)) cases [(cs.decision_id, extract_entities cs)]
  · rw [if_neg hc, if_neg hc]
    simp

theorem rels_count {j c : String} (hjc : j ≠ c) :
    ∀ (cases : List CaseData), (∀ cs ∈ cases, PairDisjoint j c cs) →
    ∀ (n : Nat) (g : PyGraph), PairInv j c n g →
    PairInv j c (n + dealsCount j c cases) (add_case_relationships g (caseEntitiesOf cases)) := by
  intro cases
  induction cases with
  | nil =>
    intro _ n g h
    simpa [add_case_relationships, caseEntitiesOf, dealsCount] using h
  | cons cs cases ih =>
    intro hdis n g h
    rw [caseEntitiesOf_cons]
    unfold add_case_relationships
    rw [List.foldl_append]
    have hcount : dealsCount j c (cs :: cases)
        = (if cs.decision_id ≠ "" ∧ j ∈ judgesOf cs ∧ c ∈ conceptsOf cs then 1 else 0)
          + dealsCount j c cases := by
      unfold dealsCount
      rw [List.filter_cons]
      by_cases hc : cs.decision_id ≠ "" ∧ j ∈ judgesOf cs ∧ c ∈ conceptsOf cs
      · rw [if_pos (by simpa using hc), if_pos hc]
        simp [Nat.add_comm]
      · rw [if_neg (by simpa using hc), if_neg hc]
        simp
    by_cases hid : cs.decision_id ≠ ""
    · rw [if_pos hid]
      simp only [List.foldl_cons, List.foldl_nil]
      have hstep := addCaseRelsOne_pair hjc cs (hdis cs (by simp)) n g h
      have hres := ih (fun c2 hc2 => hdis c2 (List.mem_cons_of_mem _ hc2))
        (n + (if j ∈ judgesOf cs ∧ c ∈ conceptsOf cs then 1 else 0)) _ hstep
      have harith : n + (if j ∈ judgesOf cs ∧ c ∈ conceptsOf cs then 1 else 0)
          + dealsCount j c cases = n + dealsCount j c (cs :: cases) := by
        rw [hcount]
        have : (if cs.decision_id ≠ "" ∧ j ∈ judgesOf cs ∧ c ∈ conceptsOf cs then 1 else 0)
            = (if j ∈ judgesOf cs ∧ c ∈ conceptsOf cs then 1 else 0) := by
          by_cases hmem : j ∈ judgesOf cs ∧ c ∈ conceptsOf cs
          · rw [if_pos ⟨hid, hmem⟩, if_pos hmem]
          · rw [if_neg (fun hq => hmem hq.2), if_neg hmem]
        rw [this]
        omega
      rw [← harith]
      unfold add_case_relationships at hres
      exact hres
    · rw [if_neg hid]
      simp only [List.foldl_nil]
      have hres := ih (fun c2 hc2 => hdis c2 (List.mem_cons_of_mem _ hc2)) n g h
      have : dealsCount j c (cs :: cases) = dealsCount j c cases := by
        rw [hcount, if_neg (fun hq => hid hq.1)]
        omega
      rw [this]
      unfold add_case_relationships at hres
      exact hres

theorem add_node_edges (g : PyGraph) (x ty : String) : (g.add_node x ty).edges = g.edges := by
  unfold PyGraph.add_node
  by_cases hc : g.nodes.any (fun p => p.1 = x) = true
  · rw [if_pos hc]
  · rw [if_neg hc]

theorem addNodesPhase_edges (g : PyGraph) (allE : List (String × List String)) :
    (addNodesPhase g allE).edges = g.edges := by
  unfold addNodesPhase
  refine foldl_preserve (fun g2 : PyGraph => g2.edges = g.edges) _ ?_ allE g rfl
  intro g2 p h2
  show (p.2.foldl (fun g e => g.add_node e p.1) g2).edges = g.edges
  refine foldl_preserve (fun g3 : PyGraph => g3.edges = g.edges) _ ?_ p.2 g2 h2
  intro g3 e h3
  show (g3.add_node e p.1).edges = g.edges
  rw [add_node_edges]
  exact h3

theorem findEdge_congr_edges {g1 g2 : PyGraph} (h : g1.edges = g2.edges) (a b : String) :
    g1.findEdge a b = g2.findEdge a b := by
  unfold PyGraph.findEdge
  rw [h]

theorem mem_fold_ids (docs : List (String × String)) :
    ∀ (cases : List CaseData) (acc : List String) (x : String),
    x ∈ cases.foldl (fun acc c =>
      if c.decision_id ≠ "" && docs.any (fun p => p.1 = c.decision_id) then
        acc ++ [c.decision_id]
      else acc) acc →
    x ∈ acc ∨ ∃ cs ∈ cases, x = cs.decision_id := by
  intro cases
  induction cases with
  | nil => intro acc x hx; exact Or.inl (by simpa using hx)
  | cons cs cases ih =>
    intro acc x hx
    simp only [List.foldl_cons] at hx
    rcases ih _ x hx with h | h
    · by_cases hc : (cs.decision_id ≠ "" && docs.any (fun p => p.1 = cs.decision_id)) = true
      · rw [if_pos hc] at h
        rcases List.mem_append.mp h with h2 | h2
        · exact Or.inl h2
        · simp only [List.mem_singleton] at h2
          exact Or.inr ⟨cs, by simp, h2⟩
      · rw [if_neg hc] at h
        exact Or.inl h
    · rcases h with ⟨cs2, hcs2, hx2⟩
      exact Or.inr ⟨cs2, List.mem_cons_of_mem _ hcs2, hx2⟩

theorem sim_pair_preserve {j c : String} (cases : List CaseData)
    (docs : List (String × String)) (sim : String → String → Frac)
    (hids : ∀ cs ∈ cases, cs.decision_id ≠ j ∧ cs.decision_id ≠ c) (g : PyGraph) :
    (add_similarity_relationships g cases docs sim).findEdge j c = g.findEdge j c := by
  unfold add_similarity_relationships
  set cids := cases.foldl (fun acc c =>
    if c.decision_id ≠ "" && docs.any (fun p => p.1 = c.decision_id) then
      acc ++ [c.decision_id]
    else acc) [] with hcids
  have hmem : ∀ x ∈ cids, x ≠ j ∧ x ≠ c := by
    intro x hx
    rcases mem_fold_ids docs cases [] x (by rw [← hcids]; exact hx) with h | h
    · simp at h
    · rcases h with ⟨cs, hcs, hxeq⟩
      rw [hxeq]
      exact hids cs hcs
  by_cases hlen : cids.length < 2
  · rw [if_pos hlen]
  · rw [if_neg hlen]
    refine foldl_preserve_mem (fun g2 : PyGraph => g2.findEdge j c = g.findEdge j c)
      _ _ ?_ g rfl
    intro g2 i hi h2
    show ((List.range cids.length).foldl (fun g j2 =>
      if i < j2 && Frac.blt ((Frac.ofNat 3).divNat 10) (sim (cids.getD i "") (cids.getD j2 "")) then
        g.add_edge_w (cids.getD i "") (cids.getD j2 "") "similar_to"
          (sim (cids.getD i "") (cids.getD j2 ""))
      else g) g2).findEdge j c = g.findEdge j c
    refine foldl_preserve_mem (fun g3 : PyGraph => g3.findEdge j c = g.findEdge j c)
      _ _ ?_ g2 h2
    intro g3 j2 hj2 h3
    by_cases hc : (i < j2 && Frac.blt ((Frac.ofNat 3).divNat 10)
        (sim (cids.getD i "") (cids.getD j2 ""))) = true
    · rw [if_pos hc]
      have hilt : i < cids.length := List.mem_range.mp hi
      have hgd : cids.getD i "" ∈ cids := by
        rw [List.getD_eq_getElem cids "" hilt]
        exact List.getElem_mem hilt
      have hne := hmem _ hgd
      rw [findEdge_add_edge_w_ne (sameEdge_false_fst hne.1 hne.2) g3 "similar_to" _]
      exact h3
    · rw [if_neg hc]
      exact h3

instance (j c : String) (cs : CaseData) : Decidable (PairDisjoint j c cs) := by
  unfold PairDisjoint
  infer_instance

/-- CLAIM C3 (amended; confirmed part).  The built graph holds at most
one edge per unordered entity pair (hence per pair and relation), and
for a corpus whose entity namespaces keep the tracked judge/concept
pair disjoint from the other roles, the deals-with edge weight of the
pair is exactly the number of cases in which the pair co-occurs
(weight accumulated by addition, one edge, no parallel edges); when
the pair never co-occurs there is no such edge.  The amendment is
forced by the counterexample below: contains and handles edges carry
no accumulated weight, so the accumulation part of the claim holds for
deals_with only. -/
theorem built_graph_one_edge_per_pair_and_deals_count (j c : String)
    (cases : List CaseData) (sim : String → String → Frac)
    (hjc : j ≠ c) (hdis : ∀ cs ∈ cases, PairDisjoint j c cs) :
    edgeKeysUnique (build_graph cases sim)
    ∧ (build_graph cases sim).findEdge j c
      = (if dealsCount j c cases = 0 then none
         else some ⟨"deals_with", some (Frac.ofNat (dealsCount j c cases))⟩) := by
  refine ⟨edgeKeysUnique_build cases sim, ?_⟩
  unfold build_graph
  rw [sim_pair_preserve cases (caseDocsOf cases) sim
    (fun cs hcs => ⟨(hdis cs hcs).1, (hdis cs hcs).2.1⟩) _]
  have h0 : PairInv j c 0 (addNodesPhase PyGraph.empty (allEntitiesOf cases)) := by
    unfold PairInv
    rw [if_pos rfl]
    rw [findEdge_congr_edges (addNodesPhase_edges PyGraph.empty (allEntitiesOf cases)) j c]
    rfl
  have hres := rels_count hjc cases hdis 0 _ h0
  rw [Nat.zero_add] at hres
  exact hres

/-- Two cases sharing the same judge and case type: two logical
co-occurrences of the handles pair. -/
def handlesCorpus : List CaseData :=
  [{ decision_id := "1/2500", judges := ["สมชาย"], case_type := "อาญา" },
   { decision_id := "2/2500", judges := ["สมชาย"], case_type := "อาญา" }]

set_option maxRecDepth 100000 in
/-- CLAIM C3 (counterexample).  The judge/case-type pair co-occurs in
both cases of `handlesCorpus`, yet the built graph stores the single
handles edge with no weight attribute at all — repeated co-occurrences
of a handles pair do not accumulate weight by addition, refuting the
claim that contains, handles and deals_with alike accumulate. -/
theorem handles_weight_not_accumulated :
    (handlesCorpus.filter (fun cs =>
      decide (cs.decision_id ≠ "" ∧ "สมชาย" ∈ judgesOf cs ∧ "อาญา" ∈ caseTypesOf cs))).length = 2
    ∧ (build_graph handlesCorpus (fun _ _ => Frac.ofNat 0)).findEdge "สมชาย" "อาญา"
      = some ⟨"handles", none⟩ := by
  constructor
  · decide
  · decide

set_option maxRecDepth 100000 in
/-- Witness for the amended claim C3 at the tax corpus: judge สมชาย
and concept ภาษี co-occur in three of its cases, the namespaces are
disjoint, and the built graph carries one deals-with edge for the pair
with weight exactly 3. -/
theorem built_graph_deals_count_witness :
    (("สมชาย" : String) ≠ "ภาษี")
    ∧ (∀ cs ∈ taxCorpus, PairDisjoint "สมชาย" "ภาษี" cs)
    ∧ (edgeKeysUnique (build_graph taxCorpus (fun _ _ => Frac.ofNat 0))
       ∧ (build_graph taxCorpus (fun _ _ => Frac.ofNat 0)).findEdge "สมชาย" "ภาษี"
         = (if dealsCount "สมชาย" "ภาษี" taxCorpus = 0 then none
            else some ⟨"deals_with",
              some (Frac.ofNat (dealsCount "สมชาย" "ภาษี" taxCorpus))⟩)) :=
  ⟨by decide, by decide,
   built_graph_one_edge_per_pair_and_deals_count "สมชาย" "ภาษี" taxCorpus
     (fun _ _ => Frac.ofNat 0) (by decide) (by decide)⟩

/-!
Node types of the built graph (claim C4): `add_node` on an existing
node overwrites its type attribute, so the recorded type of an
identifier occurring under several type buckets is the one of the
last bucket iterated, not the first-seen one.
-/

/-- Type of the first entity-index bucket containing the identifier
(the first-seen type of the claim). -/
def firstTypeIn : List (String × List String) → String → Option String
  | [], _ => none
  | b :: bs, x => if x ∈ b.2 then some b.1 else firstTypeIn bs x

/-- Type of the last entity-index bucket containing the identifier. -/
def lastTypeIn : List (String × List String) → String → Option String
  | [], _ => none
  | b :: bs, x =>
    match lastTypeIn bs x with
    | some t => some t
    | none => if x ∈ b.2 then some b.1 else none

theorem find_attr_map_ne {e x : String} (hx : x ≠ e) (t : String) :
    ∀ l : List (String × Option String),
    ((l.map (fun p => if p.1 = e then (p.1, some t) else p)).find? (fun p => p.1 = x))
    = l.find? (fun p => p.1 = x) := by
  intro l
  induction l with
  | nil => rfl
  | cons q l ih =>
    by_cases hq : q.1 = x
    · have hqe : ¬ (q.1 = e) := fun hh => hx (hq ▸ hh ▸ rfl)
      simp only [List.map_cons, if_neg hqe]
      rw [List.find?_cons_of_pos _ (by simpa using hq),
        List.find?_cons_of_pos _ (by simpa using hq)]
    · by_cases hqe : q.1 = e
      · simp only [List.map_cons, if_pos hqe]
        rw [List.find?_cons_of_neg _ (by simpa using hq),
          List.find?_cons_of_neg _ (by simpa using hq)]
        exact ih
      · simp only [List.map_cons, if_neg hqe]
        rw [List.find?_cons_of_neg _ (by simpa using hq),
          List.find?_cons_of_neg _ (by simpa using hq)]
        exact ih

theorem find_attr_map_eq (e t : String) :
    ∀ l : List (String × Option String), l.any (fun p => p.1 = e) = true →
    (((l.map (fun p => if p.1 = e then (p.1, some t) else p)).find?
      (fun p => p.1 = e)).bind (fun p => p.2)) = some t := by
  intro l
  induction l with
  | nil => intro h; simp at h
  | cons q l ih =>
    intro h
    by_cases hq : q.1 = e
    · simp only [List.map_cons, if_pos hq]
      rw [List.find?_cons_of_pos _ (by simpa using hq)]
      rfl
    · simp only [List.map_cons, if_neg hq]
      rw [List.find?_cons_of_neg _ (by simpa using hq)]
      apply ih
      simp only [List.any_cons] at h
      rcases Bool.or_eq_true_iff.mp h with h2 | h2
      · exact absurd (by simpa using h2) hq
      · exact h2

theorem nodeTypeAttr_add_node (g : PyGraph) (e t x : String) :
    (g.add_node e t).nodeTypeAttr x = if x = e then some t else g.nodeTypeAttr x := by
  unfold PyGraph.add_node PyGraph.nodeTypeAttr
  by_cases hc : g.nodes.any (fun p => p.1 = e) = true
  · rw [if_pos hc]
    by_cases hx : x = e
    · rw [if_pos hx]
      subst hx
      exact find_attr_map_eq x t g.nodes hc
    · rw [if_neg hx]
      show ((g.nodes.map _).find? _).bind _ = _
      rw [find_attr_map_ne hx t g.nodes]
  · rw [if_neg hc]
    show ((g.nodes ++ [(e, some t)]).find? _).bind _ = _
    rw [List.find?_append]
    by_cases hx : x = e
    · rw [if_pos hx]
      subst hx
      have hnone : g.nodes.find? (fun p => p.1 = x) = none := by
        rw [List.find?_eq_none]
        intro p hp hpx
        exact hc (List.any_eq_true.mpr ⟨p, hp, hpx⟩)
      rw [hnone, Option.none_or, List.find?_cons_of_pos _ (by simp)]
      rfl
    · rw [if_neg hx]
      have hsingle : ([((e : String), some t)].find? (fun p => p.1 = x)) = none := by
        rw [List.find?_cons_of_neg _ (by simpa using fun hq : e = x => hx hq.symm)]
        rfl
      rw [hsingle, Option.or_none]

theorem nodesFoldBucket (t : String) :
    ∀ (es : List String) (g : PyGraph) (x : String),
    ((es.foldl (fun g e => g.add_node e t) g)).nodeTypeAttr x
    = if x ∈ es then some t else g.nodeTypeAttr x := by
  intro es
  induction es with
  | nil => intro g x; simp
  | cons e es ih =>
    intro g x
    simp only [List.foldl_cons]
    rw [ih (g.add_node e t) x, nodeTypeAttr_add_node]
    by_cases hmem : x ∈ es
    · rw [if_pos hmem, if_pos (List.mem_cons_of_mem _ hmem)]
    · rw [if_neg hmem]
      by_cases hxe : x = e
      · rw [if_pos hxe, if_pos (by rw [hxe]; simp)]
      · rw [if_neg hxe, if_neg (by
          intro hq
          rcases List.mem_cons.mp hq with hq | hq
          · exact hxe hq
          · exact hmem hq)]

theorem addNodesPhase_type (x : String) :
    ∀ (bs : List (String × List String)) (g : PyGraph),
    (addNodesPhase g bs).nodeTypeAttr x
    = match lastTypeIn bs x with
      | some t => some t
      | none => g.nodeTypeAttr x := by
  intro bs
  induction bs with
  | nil => intro g; rfl
  | cons b bs ih =>
    intro g
    have hstep : addNodesPhase g (b :: bs)
        = addNodesPhase (b.2.foldl (fun g e => g.add_node e b.1) g) bs := by
      unfold addNodesPhase
      simp only [List.foldl_cons]
    rw [hstep, ih, nodesFoldBucket b.1 b.2 g x]
    rcases hl : lastTypeIn bs x with _ | t
    · simp only [lastTypeIn, hl]
      by_cases hmem : x ∈ b.2
      · rw [if_pos hmem, if_pos hmem]
      · rw [if_neg hmem, if_neg hmem]
    · simp only [lastTypeIn, hl]

theorem nodeTypeAttr_ensureNode (g : PyGraph) (y x : String) :
    (g.ensureNode y).nodeTypeAttr x = g.nodeTypeAttr x := by
  unfold PyGraph.ensureNode PyGraph.nodeTypeAttr
  by_cases hc : g.nodes.any (fun p => p.1 = y) = true
  · rw [if_pos hc]
  · rw [if_neg hc]
    show ((g.nodes ++ [((y : String), (none : Option String))]).find?
      (fun p => p.1 = x)).bind (fun p => p.2) = _
    rw [List.find?_append]
    by_cases hxy : y = x
    · rcases hf : g.nodes.find? (fun p => p.1 = x) with _ | p
      · rw [hf, Option.none_or, List.find?_cons_of_pos _ (by simpa using hxy)]
        rfl
      · rw [hf]
        rfl
    · have hsingle : ([((y : String), (none : Option String))].find? (fun p => p.1 = x)) = none := by
        rw [List.find?_cons_of_neg _ (by simpa using hxy)]
        rfl
      rw [hsingle, Option.or_none]

theorem nodeTypeAttr_add_edge_rel (g : PyGraph) (u v rel x : String) :
    (g.add_edge_rel u v rel).nodeTypeAttr x = g.nodeTypeAttr x := by
  unfold PyGraph.add_edge_rel
  set g2 := (g.ensureNode u).ensureNode v with hg2
  have hn : g2.nodeTypeAttr x = g.nodeTypeAttr x := by
    rw [hg2, nodeTypeAttr_ensureNode, nodeTypeAttr_ensureNode]
  by_cases hc : g2.edges.any (fun e => sameEdge u v e.1 e.2.1) = true
  · rw [if_pos hc]
    exact hn
  · rw [if_neg hc]
    exact hn

theorem nodeTypeAttr_add_edge_w (g : PyGraph) (u v rel : String) (w : Frac) (x : String) :
    (g.add_edge_w u v rel w).nodeTypeAttr x = g.nodeTypeAttr x := by
  unfold PyGraph.add_edge_w
  set g2 := (g.ensureNode u).ensureNode v with hg2
  have hn : g2.nodeTypeAttr x = g.nodeTypeAttr x := by
    rw [hg2, nodeTypeAttr_ensureNode, nodeTypeAttr_ensureNode]
  by_cases hc : g2.edges.any (fun e => sameEdge u v e.1 e.2.1) = true
  · rw [if_pos hc]
    exact hn
  · rw [if_neg hc]
    exact hn

theorem nodeTypeAttr_addCaseRelsOne (g : PyGraph) (case_id : String)
    (entities : List (String × List String)) (x : String) :
    (addCaseRelsOne g case_id entities).nodeTypeAttr x = g.nodeTypeAttr x := by
  unfold addCaseRelsOne
  have step1 : ∀ (g2 : PyGraph), g2.nodeTypeAttr x = g.nodeTypeAttr x →
      (entities.foldl (fun g te => te.2.foldl (fun g e =>
        if e ≠ case_id then g.add_edge_rel case_id e "contains" else g) g) g2).nodeTypeAttr x
      = g.nodeTypeAttr x := by
    intro g2 h2
    refine foldl_preserve (fun g3 : PyGraph => g3.nodeTypeAttr x = g.nodeTypeAttr x)
      _ ?_ entities g2 h2
    intro g3 te h3
    refine foldl_preserve (fun g4 : PyGraph => g4.nodeTypeAttr x = g.nodeTypeAttr x)
      _ ?_ te.2 g3 h3
    intro g4 e h4
    by_cases hcc : e ≠ case_id
    · rw [if_pos hcc, nodeTypeAttr_add_edge_rel]
      exact h4
    · rw [if_neg hcc]
      exact h4
  have step2 : ∀ (g2 : PyGraph), g2.nodeTypeAttr x = g.nodeTypeAttr x →
      ((if assocHasKey entities "judge" && assocHasKey entities "case_type" then
        (assocGet entities "judge").foldl (fun g j =>
          (assocGet entities "case_type").foldl (fun g ct => g.add_edge_rel j ct "handles") g) g2
      else g2)).nodeTypeAttr x = g.nodeTypeAttr x := by
    intro g2 h2
    by_cases hck : (assocHasKey entities "judge" && assocHasKey entities "case_type") = true
    · rw [if_pos hck]
      refine foldl_preserve (fun g3 : PyGraph => g3.nodeTypeAttr x = g.nodeTypeAttr x)
        _ ?_ _ g2 h2
      intro g3 j h3
      refine foldl_preserve (fun g4 : PyGraph => g4.nodeTypeAttr x = g.nodeTypeAttr x)
        _ ?_ _ g3 h3
      intro g4 ct h4
      rw [nodeTypeAttr_add_edge_rel]
      exact h4
    · rw [if_neg hck]
      exact h2
  have step3 : ∀ (g2 : PyGraph), g2.nodeTypeAttr x = g.nodeTypeAttr x →
      ((if assocHasKey entities "judge" && assocHasKey entities "legal_concept" then
        (assocGet entities "judge").foldl (fun g j =>
          (assocGet entities "legal_concept").foldl (fun g concept =>
            let w := (((g.findEdge j concept).bind (fun d => d.weight)).getD (Frac.ofNat 0)).add
              (Frac.ofNat 1)
            g.add_edge_w j concept "deals_with" w) g) g2
      else g2)).nodeTypeAttr x = g.nodeTypeAttr x := by
    intro g2 h2
    by_cases hck : (assocHasKey entities "judge" && assocHasKey entities "legal_concept") = true
    · rw [if_pos hck]
      refine foldl_preserve (fun g3 : PyGraph => g3.nodeTypeAttr x = g.nodeTypeAttr x)
        _ ?_ _ g2 h2
      intro g3 j h3
      refine foldl_preserve (fun g4 : PyGraph => g4.nodeTypeAttr x = g.nodeTypeAttr x)
        _ ?_ _ g3 h3
      intro g4 concept h4
      show (g4.add_edge_w j concept "deals_with" _).nodeTypeAttr x = g.nodeTypeAttr x
      rw [nodeTypeAttr_add_edge_w]
      exact h4
    · rw [if_neg hck]
      exact h2
  exact step3 _ (step2 _ (step1 g rfl))

theorem nodeTypeAttr_sim_phase (g : PyGraph) (cases : List CaseData)
    (docs : List (String × String)) (sim : String → String → Frac) (x : String) :
    (add_similarity_relationships g cases docs sim).nodeTypeAttr x = g.nodeTypeAttr x := by
  unfold add_similarity_relationships
  set cids := cases.foldl (fun acc c =>
    if c.decision_id ≠ "" && docs.any (fun p => p.1 = c.decision_id) then
      acc ++ [c.decision_id]
    else acc) []
  by_cases hlen : cids.length < 2
  · rw [if_pos hlen]
  · rw [if_neg hlen]
    refine foldl_preserve (fun g2 : PyGraph => g2.nodeTypeAttr x = g.nodeTypeAttr x)
      _ ?_ _ g rfl
    intro g2 i h2
    refine foldl_preserve (fun g3 : PyGraph => g3.nodeTypeAttr x = g.nodeTypeAttr x)
      _ ?_ _ g2 h2
    intro g3 j2 h3
    by_cases hcc : (i < j2 && Frac.blt ((Frac.ofNat 3).divNat 10)
        (sim (cids.getD i "") (cids.getD j2 ""))) = true
    · rw [if_pos hcc, nodeTypeAttr_add_edge_w]
      exact h3
    · rw [if_neg hcc]
      exact h3

/-- CLAIM C4 (amended; confirmed part).  The type recorded for an
identifier in the built graph is the type of the LAST entity-index
bucket containing it in iteration order (in particular, for an
identifier collected under exactly one type, that type), and the edge
phases never modify any node type.  The amendment from first-seen to
last-iterated is forced by the counterexample below. -/
theorem node_type_is_last_collected (cases : List CaseData) (sim : String → String → Frac)
    (x : String) :
    (build_graph cases sim).nodeTypeAttr x = lastTypeIn (allEntitiesOf cases) x := by
  unfold build_graph
  rw [nodeTypeAttr_sim_phase]
  have hrels : ∀ (g : PyGraph),
      (add_case_relationships g (caseEntitiesOf cases)).nodeTypeAttr x = g.nodeTypeAttr x := by
    intro g
    unfold add_case_relationships
    refine foldl_preserve (fun g2 : PyGraph => g2.nodeTypeAttr x = g.nodeTypeAttr x)
      _ ?_ _ g rfl
    intro g2 ce h2
    rw [nodeTypeAttr_addCaseRelsOne]
    exact h2
  rw [hrels, addNodesPhase_type]
  rcases hl : lastTypeIn (allEntitiesOf cases) x with _ | t
  · rfl
  · rfl

/-- One case whose identifier ภาษี is collected both as its case type
and, from its summary text, as a legal concept. -/
def typeClashCorpus : List CaseData :=
  [{ decision_id := "1/2500", case_type := "ภาษี", summary := "ภาษี" }]

set_option maxRecDepth 100000 in
/-- CLAIM C4 (counterexample).  In `typeClashCorpus` the identifier
ภาษี is first seen as a case_type (the case_type bucket precedes the
legal_concept bucket in collection order), yet the built graph records
its type as legal_concept: the last add_node call wins, refuting the
first-seen-wins and immutable-once-set claim. -/
theorem node_type_overwritten_not_first_seen :
    firstTypeIn (allEntitiesOf typeClashCorpus) "ภาษี" = some "case_type"
    ∧ (build_graph typeClashCorpus (fun _ _ => Frac.ofNat 0)).nodeTypeAttr "ภาษี"
      = some "legal_concept"
    ∧ ("case_type" : String) ≠ "legal_concept" := by
  refine ⟨by decide, by decide, by decide⟩

/-- CLAIM C6 (confirmed).  When the GraphRAG enhancement step raises
(modelled as an error outcome of the retrieval call), an initialised
`search_with_graphrag` returns the original vector candidates
unmodified as a normal (non-error) result: the exception is caught and
never propagates to the caller. -/
theorem graphrag_failure_returns_vector_results (e : String) (vr : List SearchResult) (k : Nat) :
    search_with_graphrag true (.error e) vr k = .ok vr := by
  rfl

/-- CLAIM C7 (confirmed).  Saving a knowledge-graph snapshot and
loading it back (into any current state) restores the graph — node
set and edge set with weights — and the community map exactly, and
reports success. -/
theorem snapshot_round_trip (st cur : KGState) :
    (load_graph cur (save_graph st)).1.graph.nodes = st.graph.nodes
    ∧ (load_graph cur (save_graph st)).1.graph.edges = st.graph.edges
    ∧ (load_graph cur (save_graph st)).1.communities = st.communities
    ∧ (load_graph cur (save_graph st)).2 = true :=
  ⟨rfl, rfl, rfl, rfl⟩

/-- CLAIM C8 (confirmed).  When no snapshot can be loaded,
`load_or_build_graph` fails exactly when the supplied corpus is absent
or empty: a missing or unreadable snapshot alone triggers a rebuild
from the cases, while a rebuild attempt with no cases data raises the
configuration `ValueError`. -/
theorem load_or_build_error_iff_empty_corpus (st : KGState) (f : SnapshotFile)
    (partition : Option (List (String × Nat))) (sim : String → String → Frac)
    (cases_data : Option (List CaseData))
    (h : (load_graph st f).2 = false) :
    ((load_or_build_graph st f partition sim cases_data).isOk = false
      ↔ (cases_data = none ∨ cases_data = some [])) := by
  unfold load_or_build_graph
  rw [if_neg (by simp [h])]
  match cases_data with
  | none => simp [Except.isOk, Except.toBool]
  | some [] => simp [Except.isOk, Except.toBool]
  | some (c :: cs) => simp [Except.isOk, Except.toBool]

/-- Witness for claim C8: with a missing snapshot file and an empty
corpus the loader reports failure and the build raises the
configuration error, as the theorem instantiates. -/
theorem load_or_build_error_iff_empty_corpus_witness :
    (load_graph {} SnapshotFile.missing).2 = false
    ∧ ((load_or_build_graph {} SnapshotFile.missing none (fun _ _ => Frac.ofNat 0)
        (some [])).isOk = false ↔ ((some [] : Option (List CaseData)) = none
          ∨ (some [] : Option (List CaseData)) = some [])) :=
  ⟨rfl, load_or_build_error_iff_empty_corpus {} SnapshotFile.missing none
    (fun _ _ => Frac.ofNat 0) (some []) rfl⟩

/-!
Grounds on which the fuzzy judge search returns a case (claim C5).
-/

/-- Modelled from the claim wording: a judge name overlaps the query
name when the normalised forms contain one another (either direction)
or their similarity ratio is at least 0.5. -/
def judgeOverlap (query judge : String) : Prop :=
  containsCL (normalize_judge_name judge.toList) (normalize_judge_name query.toList) = true
  ∨ containsCL (normalize_judge_name query.toList) (normalize_judge_name judge.toList) = true
  ∨ Frac.ble ⟨1, 1⟩ (similarity_score (normalize_judge_name query.toList)
      (normalize_judge_name judge.toList)) = true

instance (query judge : String) : Decidable (judgeOverlap query judge) := by
  unfold judgeOverlap
  infer_instance

/-- Ground for a returned case: some of its judges overlaps the query,
or the query name (raw lowercased or normalised) occurs in the
lowercased document text. -/
def judgeGround (judge_name : String) (p : String × Metadata) : Prop :=
  (∃ j ∈ p.2.judges, judgeOverlap judge_name j)
  ∨ containsCL (lowerChars p.1.toList) (lowerChars judge_name.toList) = true
  ∨ containsCL (lowerChars p.1.toList) (normalize_judge_name judge_name.toList) = true

instance (judge_name : String) (p : String × Metadata) : Decidable (judgeGround judge_name p) := by
  unfold judgeGround
  infer_instance

theorem judgeMatch_ground (judge_name : String) (all_judges : List String)
    (p : String × Metadata)
    (hwf : p.2.judges_normalized
      = p.2.judges.map (fun j => String.mk (normalize_judge_name j.toList)))
    (hm : judgeMatch judge_name (normalize_judge_name judge_name.toList)
      (find_best_match judge_name.toList (all_judges.map String.toList) ⟨1, 1⟩) p.1 p.2 = true) :
    judgeGround judge_name p := by
  unfold judgeMatch at hm
  rcases Bool.or_eq_true_iff.mp hm with hm | hm
  · rcases Bool.or_eq_true_iff.mp hm with hm | hm
    · rcases List.any_eq_true.mp hm with ⟨j, hj, hjm⟩
      left
      refine ⟨j, hj, ?_⟩
      have hmem : j.toList ∈ find_best_match judge_name.toList
          (all_judges.map String.toList) ⟨1, 1⟩ := by
        simpa using hjm
      unfold find_best_match at hmem
      have := (List.mem_filter.mp hmem).2
      unfold judgeOverlap
      rcases Bool.or_eq_true_iff.mp this with hq | hq
      · rcases Bool.or_eq_true_iff.mp hq with hq | hq
        · exact Or.inl hq
        · exact Or.inr (Or.inl hq)
      · exact Or.inr (Or.inr hq)
    · rcases List.any_eq_true.mp hm with ⟨jn, hjn, hjnm⟩
      left
      rw [hwf] at hjn
      rcases List.mem_map.mp hjn with ⟨j, hj, hjeq⟩
      refine ⟨j, hj, ?_⟩
      unfold judgeOverlap
      have hl : jn.toList = normalize_judge_name j.toList := by
        rw [← hjeq]
        rfl
      rw [hl] at hjnm
      rcases Bool.or_eq_true_iff.mp hjnm with hq | hq
      · exact Or.inl hq
      · exact Or.inr (Or.inl hq)
  · right
    rcases Bool.or_eq_true_iff.mp hm with hq | hq
    · exact Or.inl hq
    · exact Or.inr hq

theorem sbjLoop_grounds (judge_name : String) (all_judges : List String) (k : Nat)
    (pairs0 : List (String × Metadata)) :
    ∀ (pairs : List (String × Metadata)), (∀ p ∈ pairs, p ∈ pairs0) →
    (∀ p ∈ pairs, p.2.judges_normalized
      = p.2.judges.map (fun j => String.mk (normalize_judge_name j.toList))) →
    ∀ (res : List SearchResult) (seen : List String),
    (∀ r ∈ res, ∃ p ∈ pairs0, r = tradResult p.1 p.2 ∧ judgeGround judge_name p) →
    ∀ r ∈ sbjLoop judge_name (normalize_judge_name judge_name.toList)
      (find_best_match judge_name.toList (all_judges.map String.toList) ⟨1, 1⟩) k
      pairs res seen,
    ∃ p ∈ pairs0, r = tradResult p.1 p.2 ∧ judgeGround judge_name p := by
  intro pairs
  induction pairs with
  | nil =>
    intro _ _ res seen hres r hr
    exact hres r (by simpa [sbjLoop] using hr)
  | cons p pairs ih =>
    intro hsub hwf res seen hres r hr
    obtain ⟨doc, m⟩ := p
    simp only [sbjLoop] at hr
    have hsub2 : ∀ q ∈ pairs, q ∈ pairs0 := fun q hq => hsub q (List.mem_cons_of_mem _ hq)
    have hwf2 : ∀ q ∈ pairs, q.2.judges_normalized
        = q.2.judges.map (fun j => String.mk (normalize_judge_name j.toList)) :=
      fun q hq => hwf q (List.mem_cons_of_mem _ hq)
    by_cases hmatch : judgeMatch judge_name (normalize_judge_name judge_name.toList)
        (find_best_match judge_name.toList (all_judges.map String.toList) ⟨1, 1⟩) doc m = true
    · rw [if_pos hmatch] at hr
      have hpground : ∃ q ∈ pairs0, tradResult doc m = tradResult q.1 q.2
          ∧ judgeGround judge_name q := by
        refine ⟨(doc, m), hsub (doc, m) (by simp), rfl, ?_⟩
        exact judgeMatch_ground judge_name all_judges (doc, m) (hwf (doc, m) (by simp)) hmatch
      by_cases hseen : seen.contains m.decision_id = true
      · rw [if_pos hseen] at hr
        exact ih hsub2 hwf2 res seen hres r hr
      · rw [if_neg hseen] at hr
        have hres2 : ∀ r2 ∈ res ++ [tradResult doc m],
            ∃ q ∈ pairs0, r2 = tradResult q.1 q.2 ∧ judgeGround judge_name q := by
          intro r2 hr2
          rcases List.mem_append.mp hr2 with h2 | h2
          · exact hres r2 h2
          · simp only [List.mem_singleton] at h2
            subst h2
            exact hpground
        by_cases hk : k ≤ (res ++ [tradResult doc m]).length
        · rw [if_pos hk] at hr
          exact hres2 r hr
        · rw [if_neg hk] at hr
          exact ih hsub2 hwf2 _ _ hres2 r hr
    · rw [if_neg hmatch] at hr
      exact ih hsub2 hwf2 res seen hres r hr

/-- CLAIM C5 (amended; confirmed part).  Every case returned by the
fuzzy judge search either has some judge whose normalised name
overlaps the normalised query name (containment either direction, or
similarity ratio at least 0.5), or — the ground the claim omits — the
query name (raw lowercased, or normalised) occurs as a substring of
the document text of the case.  The well-formedness hypothesis records
that the precomputed `judges_normalized` metadata is the normalisation
of the judge list, as the data loader produces it. -/
theorem search_by_judge_grounds (E : TradEngine) (judge_name : String) (k : Nat)
    (hwf : ∀ m ∈ E.metadatas, m.judges_normalized
      = m.judges.map (fun j => String.mk (normalize_judge_name j.toList))) :
    ∀ r ∈ search_by_judge E judge_name k,
      ∃ p ∈ E.docs.zip E.metadatas, r = tradResult p.1 p.2 ∧ judgeGround judge_name p := by
  intro r hr
  unfold search_by_judge at hr
  refine sbjLoop_grounds judge_name
    (E.metadatas.foldl (fun acc m => acc ++ m.judges) []) k
    (E.docs.zip E.metadatas) (E.docs.zip E.metadatas) (fun p hp => hp) ?_ [] []
    (by simp) r hr
  intro p hp
  exact hwf p.2 (List.mem_zip hp).2

/-- Engine with a single case that has no judges at all but whose
document text mentions the queried name. -/
def judgeTextEngine : TradEngine :=
  { docs := ["คำพิพากษาโดย สมชาย ในคดีนี้"]
    metadatas := [{ decision_id := "9/2500", title := "t", source := "s",
                    judges := [], judges_normalized := [] }] }

set_option maxRecDepth 100000 in
/-- CLAIM C5 (counterexample).  The judge-mention query routes the
combined search to the fuzzy judge search, which returns the case of
`judgeTextEngine` on the strength of a raw text-substring hit alone:
the returned case has no judges, so no judge of it overlaps the query
name on any criterion — refuting the claim that cases are returned on
no other ground. -/
theorem judge_search_returns_text_hit_without_judge :
    ∃ r ∈ combined_search judgeTextEngine {} (fun _ _ => []) "ผู้พิพากษา สมชาย" none none 5,
      r.decision_id = "9/2500" ∧ r.judges = []
      ∧ ¬ (∃ j ∈ r.judges, judgeOverlap "สมชาย" j) := by
  decide

/-- Engine whose single case carries a properly normalised judge
list. -/
def judgeWfEngine : TradEngine :=
  { docs := ["คดีตัวอย่าง"]
    metadatas := [{ decision_id := "10/2500", title := "t", source := "s",
                    judges := ["นายสมชาย ใจดี"], judges_normalized := ["สมชาย ใจดี"] }] }

set_option maxRecDepth 100000 in
/-- Witness for the amended claim C5: the well-formedness hypothesis
holds for `judgeWfEngine` and every result of the judge search for
สมชาย there satisfies one of the two grounds. -/
theorem search_by_judge_grounds_witness :
    (∀ m ∈ judgeWfEngine.metadatas, m.judges_normalized
      = m.judges.map (fun j => String.mk (normalize_judge_name j.toList)))
    ∧ (∀ r ∈ search_by_judge judgeWfEngine "สมชาย" 5,
        ∃ p ∈ judgeWfEngine.docs.zip judgeWfEngine.metadatas,
          r = tradResult p.1 p.2 ∧ judgeGround "สมชาย" p) :=
  ⟨by decide, search_by_judge_grounds judgeWfEngine "สมชาย" 5 (by decide)⟩

/-!
Exact case-number matching (claim C10): the stripped query is compared
for whole-string equality against each decision id (with slash-dash
substitution), so any query with surrounding non-case-number text
yields zero hits and the router falls through.
-/

/-- A decision id made only of digits and the two separators. -/
def BareCaseNumber (id : String) : Prop :=
  ∀ ch ∈ id.toList, ch.isDigit = true ∨ ch = '/' ∨ ch = '-'

instance (id : String) : Decidable (BareCaseNumber id) := by
  unfold BareCaseNumber
  infer_instance

theorem mem_replaceChar {c a b : Char} (hca : c ≠ a) {l : List Char} (hc : c ∈ l) :
    c ∈ replaceChar a b l := by
  unfold replaceChar
  refine List.mem_map.mpr ⟨c, hc, ?_⟩
  rw [if_neg hca]

theorem clean_ne_bare {clean : List Char} {id : String} (hbare : BareCaseNumber id)
    {c : Char} (hc : c ∈ clean) (hd : c.isDigit = false) (hs : c ≠ '/') (hh : c ≠ '-') :
    clean ≠ id.toList
    ∧ replaceChar '/' '-' clean ≠ id.toList
    ∧ replaceChar '-' '/' clean ≠ id.toList := by
  have hnot : c ∉ id.toList := by
    intro hmem
    rcases hbare c hmem with h | h | h
    · rw [h] at hd; exact Bool.noConfusion hd
    · exact hs h
    · exact hh h
  refine ⟨?_, ?_, ?_⟩
  · intro heq
    exact hnot (heq ▸ hc)
  · intro heq
    exact hnot (heq ▸ mem_replaceChar hs hc)
  · intro heq
    exact hnot (heq ▸ mem_replaceChar hh hc)

theorem sbcnLoop_empty {clean : List Char} (k : Nat)
    {c : Char} (hc : c ∈ clean) (hd : c.isDigit = false) (hs : c ≠ '/') (hh : c ≠ '-') :
    ∀ (pairs : List (String × Metadata)), (∀ p ∈ pairs, BareCaseNumber p.2.decision_id) →
    ∀ (seen : List String), sbcnLoop clean k pairs [] seen = [] := by
  intro pairs
  induction pairs with
  | nil => intro _ seen; rfl
  | cons p pairs ih =>
    intro hbare seen
    obtain ⟨doc, m⟩ := p
    have hne := clean_ne_bare (hbare (doc, m) (by simp)) hc hd hs hh
    simp only [sbcnLoop]
    rw [if_neg (by
      simp only [Bool.or_eq_true, decide_eq_true_eq]
      rintro ((hq | hq) | hq)
      · exact hne.1 hq
      · exact hne.2.1 hq
      · exact hne.2.2 hq)]
    exact ih (fun q hq => hbare q (List.mem_cons_of_mem _ hq)) seen

/-- CLAIM C10 (confirmed).  When every stored decision id is a bare
case number and the stripped query contains any character outside the
case-number alphabet (i.e. the embedded case-number pattern comes with
surrounding text), the exact case-number lookup returns zero hits, and
the combined search therefore falls through to the later strategy
steps (its result is that of the post-case-number chain). -/
theorem case_number_step_needs_whole_query (E : TradEngine) (kg : KGState)
    (vecFn : String → Nat → List SearchResult) (query : String)
    (case_type judge_name : Option String) (k : Nat)
    (hbare : ∀ m ∈ E.metadatas, BareCaseNumber m.decision_id)
    (halien : ∃ c ∈ trimChars query.toList, c.isDigit = false ∧ c ≠ '/' ∧ c ≠ '-') :
    search_by_case_number E query k = []
    ∧ combined_search E kg vecFn query case_type judge_name k
      = combined_search_rest E kg vecFn query case_type judge_name k := by
  obtain ⟨c, hc, hd, hs, hh⟩ := halien
  have hempty : search_by_case_number E query k = [] := by
    unfold search_by_case_number
    refine sbcnLoop_empty k hc hd hs hh (E.docs.zip E.metadatas) ?_ []
    intro p hp
    exact hbare p.2 (List.of_mem_zip hp).2
  refine ⟨hempty, ?_⟩
  unfold combined_search
  by_cases hpat : hasCaseNumberPattern query.toList = true
  · rw [if_pos hpat, hempty]
    rfl
  · rw [if_neg hpat]
    rfl

/-- Engine holding one bare-numbered decision. -/
def caseNumEngine : TradEngine :=
  { docs := ["คำพิพากษา"]
    metadatas := [{ decision_id := "123/2566", title := "t", source := "s" }] }

set_option maxRecDepth 100000 in
/-- Witness for claim C10: the query embedding the stored case number
123/2566 in surrounding Thai text matches the router pattern yet the
exact lookup returns nothing, and the combined search equals the
post-case-number chain. -/
theorem case_number_step_needs_whole_query_witness :
    (∀ m ∈ caseNumEngine.metadatas, BareCaseNumber m.decision_id)
    ∧ (∃ c ∈ trimChars ("คดี 123/2566 ครับ" : String).toList,
        c.isDigit = false ∧ c ≠ '/' ∧ c ≠ '-')
    ∧ (search_by_case_number caseNumEngine "คดี 123/2566 ครับ" 5 = []
       ∧ combined_search caseNumEngine {} (fun _ _ => []) "คดี 123/2566 ครับ" none none 5
         = combined_search_rest caseNumEngine {} (fun _ _ => []) "คดี 123/2566 ครับ"
             none none 5) :=
  ⟨by decide, by decide,
   case_number_step_needs_whole_query caseNumEngine {} (fun _ _ => [])
     "คดี 123/2566 ครับ" none none 5 (by decide) (by decide)⟩
